import Mathlib

/-!
# Verification of the company-deduplicator core

Shallow embedding of the TypeScript sources of `company-deduplicator`
(`src/utils/normalizer.ts`, `src/utils/matcher.ts`, `src/config.ts`,
`src/deduplicator.ts`) together with proofs and refutations of the frozen
claims about the specification.

Modelling conventions:
* JavaScript strings are modelled by Lean `String` (a list of characters);
  the per-character JavaScript operations (`toLowerCase`, `\w`, `\s`,
  `normalize('NFD')`) are modelled by explicit character functions below.
* JavaScript floating-point numbers that hold confidences and thresholds are
  modelled by `ℚ` (exact arithmetic); `Number.prototype.toFixed(3)` is
  round-half-up at three decimals, which for the non-negative values that
  occur here agrees with `round (q * 1000) / 1000`.
* `maxResultsPerCompany` is modelled by `ℤ` (the code only checks `<= 0`).
-/

namespace CompanyDedup

/-! ## Character-level models of the JavaScript primitives -/

/-- Model of the per-character effect of `String.prototype.toLowerCase`
(ASCII range; characters outside `A`–`Z` are returned unchanged, which is
accurate for every character class the normalizer keeps). -/
def jsToLowerChar (c : Char) : Char :=
  if 65 ≤ c.toNat ∧ c.toNat ≤ 90 then Char.ofNat (c.toNat + 32) else c

/-- The JavaScript regular-expression class `\w` (without the `u` flag):
ASCII letters, ASCII digits and underscore. -/
def isWordChar (c : Char) : Bool :=
  (97 ≤ c.toNat && c.toNat ≤ 122) || (65 ≤ c.toNat && c.toNat ≤ 90) ||
  (48 ≤ c.toNat && c.toNat ≤ 57) || c.toNat = 95

/-- The JavaScript regular-expression class `\d`: ASCII digits. -/
def isDigitChar (c : Char) : Bool :=
  48 ≤ c.toNat && c.toNat ≤ 57

/-- The JavaScript regular-expression class `\s` (WhiteSpace and
LineTerminator code points, as also removed by `String.prototype.trim`). -/
def isJsSpace (c : Char) : Bool :=
  c.toNat = 32 || c.toNat = 9 || c.toNat = 10 || c.toNat = 0xb || c.toNat = 0xc ||
  c.toNat = 13 ||
  c.toNat = 0xa0 || c.toNat = 0x1680 ||
  (0x2000 ≤ c.toNat && c.toNat ≤ 0x200a) ||
  c.toNat = 0x2028 || c.toNat = 0x2029 || c.toNat = 0x202f ||
  c.toNat = 0x205f || c.toNat = 0x3000 || c.toNat = 0xfeff

/-- Model of Unicode canonical decomposition (`String.prototype.normalize('NFD')`)
for the Latin lowercase accented letters that matter to company names; every
other character decomposes to itself.  The combining marks used are in the
range U+0300–U+036F. -/
def NFD_TABLE : List (Char × List Char) :=
  [('á', ['a', Char.ofNat 0x301]),
   ('à', ['a', Char.ofNat 0x300]),
   ('â', ['a', Char.ofNat 0x302]),
   ('ä', ['a', Char.ofNat 0x308]),
   ('ã', ['a', Char.ofNat 0x303]),
   ('å', ['a', Char.ofNat 0x30a]),
   ('ç', ['c', Char.ofNat 0x327]),
   ('é', ['e', Char.ofNat 0x301]),
   ('è', ['e', Char.ofNat 0x300]),
   ('ê', ['e', Char.ofNat 0x302]),
   ('ë', ['e', Char.ofNat 0x308]),
   ('í', ['i', Char.ofNat 0x301]),
   ('ì', ['i', Char.ofNat 0x300]),
   ('î', ['i', Char.ofNat 0x302]),
   ('ï', ['i', Char.ofNat 0x308]),
   ('ñ', ['n', Char.ofNat 0x303]),
   ('ó', ['o', Char.ofNat 0x301]),
   ('ò', ['o', Char.ofNat 0x300]),
   ('ô', ['o', Char.ofNat 0x302]),
   ('ö', ['o', Char.ofNat 0x308]),
   ('õ', ['o', Char.ofNat 0x303]),
   ('ú', ['u', Char.ofNat 0x301]),
   ('ù', ['u', Char.ofNat 0x300]),
   ('û', ['u', Char.ofNat 0x302]),
   ('ü', ['u', Char.ofNat 0x308]),
   ('ý', ['y', Char.ofNat 0x301])]

def nfdChar (c : Char) : List Char :=
  match NFD_TABLE.find? (fun p => p.1 = c) with
  | some p => p.2
  | none => [c]

/-- Combining diacritical marks, the range removed by
`.replace(/[\u0300-\u036f]/g, '')` in `removeAccents`. -/
def isCombiningMark (c : Char) : Bool :=
  0x300 ≤ c.toNat && c.toNat ≤ 0x36f

/-! ## List-of-characters building blocks -/

/-- `String.prototype.trim`: drop leading and trailing whitespace. -/
def jsTrimList (l : List Char) : List Char :=
  ((l.dropWhile isJsSpace).reverse.dropWhile isJsSpace).reverse

/-- `.replace(/\s+/g, ' ')`: collapse every run of whitespace characters to a
single ASCII space.  The boolean accumulator records whether the previous
character belonged to a whitespace run. -/
def collapseSpacesAux : Bool → List Char → List Char
  | _, [] => []
  | prevSpace, c :: rest =>
    if isJsSpace c then
      if prevSpace then collapseSpacesAux true rest
      else ' ' :: collapseSpacesAux true rest
    else c :: collapseSpacesAux false rest

def collapseSpaces (l : List Char) : List Char :=
  collapseSpacesAux false l

/-- `String.prototype.split(' ')`: split on every single ASCII space,
keeping empty segments (so `split '' = ['']`, `split ' ' = ['', '']`). -/
def splitOnSpace : List Char → List (List Char)
  | [] => [[]]
  | c :: rest =>
    if c = ' ' then [] :: splitOnSpace rest
    else
      match splitOnSpace rest with
      | [] => [[c]]
      | w :: ws => (c :: w) :: ws

/-- `Array.prototype.join(' ')`. -/
def joinWithSpace : List (List Char) → List Char
  | [] => []
  | [w] => w
  | w :: ws => w ++ ' ' :: joinWithSpace ws

/-- `Array.prototype.includes` / `Set.prototype.has` on lists of strings. -/
def listHas (l : List (List Char)) (w : List Char) : Bool :=
  l.any (fun x => x = w)

/-- First-occurrence deduplication, the semantics of `[...new Set(xs)]`. -/
def dedupFirst {α : Type} [DecidableEq α] : List α → List α
  | [] => []
  | x :: xs => x :: (dedupFirst xs).filter (fun y => y ≠ x)

/-- Does `l` start with segment `s`?  (Helper for the substring test.) -/
def startsWithSeg : List Char → List Char → Bool
  | _, [] => true
  | [], _ :: _ => false
  | a :: as, b :: bs => a = b && startsWithSeg as bs

/-- `String.prototype.includes`: does `l` contain `s` as a contiguous
segment? -/
def containsSeg : List Char → List Char → Bool
  | [], s => s.isEmpty
  | a :: rest, s => startsWithSeg (a :: rest) s || containsSeg rest s

/-! ## Normalizer (`src/utils/normalizer.ts`) -/

/-- `BUSINESS_SUFFIXES` from `normalizer.ts`, verbatim. -/
def BUSINESS_SUFFIXES : List (List Char) :=
  (["ltd", "limited", "inc", "incorporated", "corp", "corporation", "co", "company",
    "llc", "limited liability company", "plc", "public limited company",
    "studio", "studios", "games", "entertainment", "interactive", "digital",
    "software", "technologies", "tech", "systems", "solutions", "services",
    "group", "holdings", "ventures", "partners", "associates", "enterprises"].map
    String.data)

/-- `GEOGRAPHIC_TERMS` from `normalizer.ts`, verbatim. -/
def GEOGRAPHIC_TERMS : List (List Char) :=
  (["usa", "us", "america", "american", "canada", "canadian", "uk", "britain", "british",
    "europe", "european", "asia", "asian", "japan", "japanese", "china", "chinese",
    "france", "french", "germany", "german", "italy", "italian", "spain", "spanish",
    "montreal", "toronto", "vancouver", "london", "paris", "berlin", "tokyo", "shanghai",
    "emea", "benelux", "oecd"].map String.data)

/-- Configuration record (`src/types.ts`, interface `DeduplicationConfig`). -/
structure DeduplicationConfig where
  highSimilarityThreshold : ℚ
  tokenMatchThreshold : ℚ
  partialMatchThreshold : ℚ
  removeSuffixes : Bool
  handleAccents : Bool
  removeNumbers : Bool
  minConfidenceScore : ℚ
  maxResultsPerCompany : ℤ
  deriving DecidableEq, Repr

/-- `removeAccents` from `normalizer.ts`:
NFD decomposition followed by removal of the U+0300–U+036F range. -/
def removeAccentsList (l : List Char) : List Char :=
  (l.flatMap nfdChar).filter (fun c => ¬ isCombiningMark c)

/-- `removeSuffixes` from `normalizer.ts`: split on spaces, drop whole words
that occur in `BUSINESS_SUFFIXES` (compared lowercase), re-join, trim. -/
def removeSuffixesList (l : List Char) : List Char :=
  jsTrimList (joinWithSpace
    ((splitOnSpace l).filter
      (fun w => ¬ listHas BUSINESS_SUFFIXES (w.map jsToLowerChar))))

/-- `normalizeCompanyName` from `normalizer.ts`, on character lists:
lowercase + trim, optional accent folding, optional digit removal, map every
non-word, non-space character to a space, collapse whitespace, trim, optional
suffix removal. -/
def normalizeList (l : List Char) (config : DeduplicationConfig) : List Char :=
  let n1 := jsTrimList (l.map jsToLowerChar)
  let n2 := if config.handleAccents then removeAccentsList n1 else n1
  let n3 := if config.removeNumbers then n2.filter (fun c => ¬ isDigitChar c) else n2
  let n4 := jsTrimList (collapseSpaces
    (n3.map (fun c => if ¬ isWordChar c ∧ ¬ isJsSpace c then ' ' else c)))
  if config.removeSuffixes then removeSuffixesList n4 else n4

/-- `normalizeCompanyName` on `String`. -/
def normalizeCompanyName (name : String) (config : DeduplicationConfig) : String :=
  ⟨normalizeList name.data config⟩

/-- `extractTokens` from `normalizer.ts`: split a normalized name on spaces,
keep nonempty words, sort (the sort is irrelevant to every set-based
consumer; we model the default code-unit sort by an insertion sort). -/
def lexLeChar (a b : List Char) : Bool :=
  match a, b with
  | [], _ => true
  | _ :: _, [] => false
  | c :: cs, d :: ds => c < d || (c = d && lexLeChar cs ds)

def insertSorted (w : List Char) : List (List Char) → List (List Char)
  | [] => [w]
  | x :: xs => if lexLeChar w x then w :: x :: xs else x :: insertSorted w xs

def sortTokens : List (List Char) → List (List Char)
  | [] => []
  | x :: xs => insertSorted x (sortTokens xs)

def extractTokens (normalizedName : String) : List (List Char) :=
  sortTokens ((splitOnSpace normalizedName.data).filter (fun t => t.length > 0))

/-- `calculateTokenOverlap` from `normalizer.ts`: Jaccard index of the two
token sets (JavaScript `Set`s, modelled by first-occurrence deduplication);
`0` when the union is empty. -/
def calculateTokenOverlap (name1 name2 : String) : ℚ :=
  let t1 := dedupFirst (extractTokens name1)
  let t2 := dedupFirst (extractTokens name2)
  let inter := (t1.filter (fun t => listHas t2 t)).length
  let union := (t1 ++ t2.filter (fun t => ¬ listHas t1 t)).length
  if union > 0 then (inter : ℚ) / (union : ℚ) else 0

/-- `isLikelyGeographicVariant` from `normalizer.ts`: the tokens present in
only one of the two names (each side separately) are nonempty and all
geographic. -/
def isLikelyGeographicVariant (name1 name2 : String) : Bool :=
  let tokens1 := dedupFirst (splitOnSpace (name1.data.map jsToLowerChar))
  let tokens2 := dedupFirst (splitOnSpace (name2.data.map jsToLowerChar))
  let diff1 := tokens1.filter (fun t => ¬ listHas tokens2 t)
  let diff2 := tokens2.filter (fun t => ¬ listHas tokens1 t)
  let isOnlyGeographic := fun (diffs : List (List Char)) =>
    diffs.length > 0 &&
      diffs.all (fun d => listHas GEOGRAPHIC_TERMS (d.map jsToLowerChar))
  isOnlyGeographic diff1 || isOnlyGeographic diff2

/-! ## Matcher (`src/utils/matcher.ts`) -/

/-- `calculateLevenshteinDistance` from `matcher.ts`.  The TypeScript code
fills the classical dynamic-programming matrix; Mathlib's `levenshtein` with
`Levenshtein.defaultCost` satisfies exactly that matrix's recurrence
(`levenshtein_cons_cons`: deletion `+1`, insertion `+1`, substitution
`+ (if equal then 0 else 1)`), so it computes the same value.  The three
early returns of the source are kept. -/
def calculateLevenshteinDistance (a b : String) : ℕ :=
  if a = b then 0
  else if a.length = 0 then b.length
  else if b.length = 0 then a.length
  else levenshtein Levenshtein.defaultCost a.data b.data

/-- `calculateSimilarity` from `matcher.ts`:
`(maxLen - distance) / maxLen`, and `1` when both strings are empty. -/
def calculateSimilarity (a b : String) : ℚ :=
  let maxLen := max a.length b.length
  if maxLen = 0 then 1
  else ((maxLen : ℚ) - (calculateLevenshteinDistance a b : ℚ)) / (maxLen : ℚ)

/-- `MatchMethod` from `src/types.ts`. -/
inductive MatchMethod where
  | exact_after_normalization
  | high_similarity
  | token_match
  | partial_match
  deriving DecidableEq, Repr

/-- `Number(confidence.toFixed(3))`: round half-up to three decimals
(confidences here are always non-negative, where `toFixed` rounds half away
from zero, i.e. half-up). -/
def roundTo3 (q : ℚ) : ℚ :=
  ((round (q * 1000) : ℤ) : ℚ) / 1000

/-- `CompanyMatch` from `src/types.ts`. -/
structure CompanyMatch where
  original : String
  candidate : String
  confidence : ℚ
  method : MatchMethod
  normalizedOriginal : String
  normalizedCandidate : String
  deriving DecidableEq, Repr

/-- `makeMatch` from `matcher.ts`. -/
def makeMatch (original candidate normalizedOriginal normalizedCandidate : String)
    (confidence : ℚ) (method : MatchMethod) : CompanyMatch :=
  { original := original
    candidate := candidate
    confidence := roundTo3 confidence
    method := method
    normalizedOriginal := normalizedOriginal
    normalizedCandidate := normalizedCandidate }

/-- `findExactMatches` from `matcher.ts`: skip the query itself (raw string
identity), accept iff the normalized forms coincide, confidence `1`. -/
def findExactMatches (original : String) (candidates : List String)
    (config : DeduplicationConfig) : List CompanyMatch :=
  let normalizedOriginal := normalizeCompanyName original config
  candidates.filterMap (fun candidate =>
    if candidate = original then none
    else
      let normalizedCandidate := normalizeCompanyName candidate config
      if normalizedCandidate = normalizedOriginal then
        some (makeMatch original candidate normalizedOriginal normalizedCandidate 1
          MatchMethod.exact_after_normalization)
      else none)

/-- `findHighSimilarityMatches` from `matcher.ts`. -/
def findHighSimilarityMatches (original : String) (candidates : List String)
    (config : DeduplicationConfig) : List CompanyMatch :=
  let normalizedOriginal := normalizeCompanyName original config
  candidates.filterMap (fun candidate =>
    if candidate = original then none
    else
      let normalizedCandidate := normalizeCompanyName candidate config
      let score := calculateSimilarity normalizedOriginal normalizedCandidate
      if config.highSimilarityThreshold ≤ score then
        some (makeMatch original candidate normalizedOriginal normalizedCandidate score
          MatchMethod.high_similarity)
      else none)

/-- `findTokenMatches` from `matcher.ts`: confidence is the raw token
overlap; no geographic boost appears anywhere in this function. -/
def findTokenMatches (original : String) (candidates : List String)
    (config : DeduplicationConfig) : List CompanyMatch :=
  let normalizedOriginal := normalizeCompanyName original config
  candidates.filterMap (fun candidate =>
    if candidate = original then none
    else
      let normalizedCandidate := normalizeCompanyName candidate config
      let overlap := calculateTokenOverlap normalizedOriginal normalizedCandidate
      if config.tokenMatchThreshold ≤ overlap then
        some (makeMatch original candidate normalizedOriginal normalizedCandidate overlap
          MatchMethod.token_match)
      else none)

/-- `findPartialMatches` from `matcher.ts`.  In JavaScript, when both
normalized forms are empty `shorter.length / longer.length` is `0 / 0 = NaN`
and `NaN >= threshold` is false, so the guard `longer.length ≠ 0` models the
comparison's rejection of that case exactly. -/
def findPartialMatches (original : String) (candidates : List String)
    (config : DeduplicationConfig) : List CompanyMatch :=
  let normalizedOriginal := normalizeCompanyName original config
  candidates.filterMap (fun candidate =>
    if candidate = original then none
    else
      let normalizedCandidate := normalizeCompanyName candidate config
      let shorter := if normalizedOriginal.length ≤ normalizedCandidate.length
        then normalizedOriginal else normalizedCandidate
      let longer := if shorter = normalizedOriginal then normalizedCandidate
        else normalizedOriginal
      if containsSeg longer.data shorter.data then
        if longer.length ≠ 0 ∧
            config.partialMatchThreshold ≤
              (shorter.length : ℚ) / (longer.length : ℚ) then
          some (makeMatch original candidate normalizedOriginal normalizedCandidate
            ((shorter.length : ℚ) / (longer.length : ℚ))
            MatchMethod.partial_match)
        else none
      else none)

/-- One step of the reconciliation loop of `findAllMatches`: a JavaScript
`Map.set` keeps an existing key's position and only replaces the value, and
the source replaces only when the new confidence is strictly greater. -/
def bestMapInsert (acc : List CompanyMatch) (m : CompanyMatch) : List CompanyMatch :=
  if acc.any (fun x => x.candidate = m.candidate) then
    acc.map (fun x =>
      if x.candidate = m.candidate ∧ x.confidence < m.confidence then m else x)
  else acc ++ [m]

/-- The reconciliation map of `findAllMatches`, in `Map` insertion order. -/
def reconcileMatches (combined : List CompanyMatch) : List CompanyMatch :=
  combined.foldl bestMapInsert []

/-- The pooled strategy results of `findAllMatches`, in strategy order. -/
def combinedMatches (original : String) (candidates : List String)
    (config : DeduplicationConfig) : List CompanyMatch :=
  findExactMatches original candidates config ++
  findHighSimilarityMatches original candidates config ++
  findTokenMatches original candidates config ++
  findPartialMatches original candidates config

/-- The reconciled matches that pass the confidence floor, before ranking. -/
def survivingMatches (original : String) (candidates : List String)
    (config : DeduplicationConfig) : List CompanyMatch :=
  (reconcileMatches (combinedMatches original candidates config)).filter
    (fun m => config.minConfidenceScore ≤ m.confidence)

/-- Stable insertion into a list sorted by descending confidence: the new
element goes after every element of greater-or-equal confidence, which is
the unique stable-sort behaviour of `Array.prototype.sort` (stable since
ES2019) under the comparator `(a, b) => b.confidence - a.confidence`. -/
def insertByConfidence (m : CompanyMatch) : List CompanyMatch → List CompanyMatch
  | [] => [m]
  | x :: xs =>
    if m.confidence < x.confidence then x :: insertByConfidence m xs
    else m :: x :: xs

/-- `.sort((a, b) => b.confidence - a.confidence)`, as a stable sort. -/
def sortByConfidenceDesc : List CompanyMatch → List CompanyMatch
  | [] => []
  | x :: xs => insertByConfidence x (sortByConfidenceDesc xs)

/-- `Array.prototype.slice(0, n)` for the non-negative counts used here. -/
def jsSlice {α : Type} (n : ℤ) (l : List α) : List α :=
  l.take n.toNat

/-- `findAllMatches` from `matcher.ts`: pool the four strategies, reconcile
per candidate, filter by the confidence floor, sort by descending confidence
(stable), truncate. -/
def findAllMatches (original : String) (candidates : List String)
    (config : DeduplicationConfig) : List CompanyMatch :=
  jsSlice config.maxResultsPerCompany
    (sortByConfidenceDesc (survivingMatches original candidates config))

/-! ## Configuration (`src/config.ts`, with the older copy of the same
tables from the unnamed `config.ts` variant) -/

/-- `CONFIG_PRESETS.conservative` from `src/config.ts`. -/
def conservativePreset : DeduplicationConfig :=
  { highSimilarityThreshold := 92/100
    tokenMatchThreshold := 88/100
    partialMatchThreshold := 85/100
    removeSuffixes := true
    handleAccents := true
    removeNumbers := false
    minConfidenceScore := 85/100
    maxResultsPerCompany := 10 }

/-- `CONFIG_PRESETS.balanced` from `src/config.ts`. -/
def balancedPreset : DeduplicationConfig :=
  { highSimilarityThreshold := 85/100
    tokenMatchThreshold := 80/100
    partialMatchThreshold := 70/100
    removeSuffixes := true
    handleAccents := true
    removeNumbers := false
    minConfidenceScore := 75/100
    maxResultsPerCompany := 10 }

/-- `CONFIG_PRESETS.aggressive` from `src/config.ts`. -/
def aggressivePreset : DeduplicationConfig :=
  { highSimilarityThreshold := 78/100
    tokenMatchThreshold := 70/100
    partialMatchThreshold := 60/100
    removeSuffixes := true
    handleAccents := true
    removeNumbers := false
    minConfidenceScore := 60/100
    maxResultsPerCompany := 15 }

/-- `DEFAULT_CONFIG` (`{ ...CONFIG_PRESETS.balanced }`). -/
def DEFAULT_CONFIG : DeduplicationConfig := balancedPreset

/-- `CONFIG_PRESETS.conservative` from the older, unnamed copy of
`config.ts` (identical except `maxResultsPerCompany: 5`). -/
def conservativePresetLegacy : DeduplicationConfig :=
  { conservativePreset with maxResultsPerCompany := 5 }

/-- `validateConfig` from `src/config.ts`: each of the five checks appends
its own message; nothing short-circuits. -/
def validateConfig (cfg : DeduplicationConfig) : List String :=
  (if cfg.highSimilarityThreshold < 0 ∨ 1 < cfg.highSimilarityThreshold
    then ["highSimilarityThreshold must be between 0 and 1"] else []) ++
  (if cfg.tokenMatchThreshold < 0 ∨ 1 < cfg.tokenMatchThreshold
    then ["tokenMatchThreshold must be between 0 and 1"] else []) ++
  (if cfg.partialMatchThreshold < 0 ∨ 1 < cfg.partialMatchThreshold
    then ["partialMatchThreshold must be between 0 and 1"] else []) ++
  (if cfg.minConfidenceScore < 0 ∨ 1 < cfg.minConfidenceScore
    then ["minConfidenceScore must be between 0 and 1"] else []) ++
  (if cfg.maxResultsPerCompany ≤ 0
    then ["maxResultsPerCompany must be > 0"] else [])

/-! ## Deduplicator (`src/deduplicator.ts`) -/

/-- `DuplicateGroup` from `src/types.ts`. -/
structure DuplicateGroup where
  original : String
  duplicates : List CompanyMatch
  totalMatches : ℕ
  deriving DecidableEq, Repr

/-- `DeduplicationResult` from `src/types.ts` (the wall-clock
`processingTimeMs` field is not part of the functional model). -/
structure DeduplicationResult where
  totalCompanies : ℕ
  duplicateGroups : List DuplicateGroup
  config : DeduplicationConfig
  deriving DecidableEq, Repr

/-- The `CompanyDeduplicator` constructor: validate, and throw
(`Except.error`) before any matching work when the configuration is
invalid; otherwise store a copy of the configuration. -/
def mkCompanyDeduplicator (config : DeduplicationConfig) :
    Except String DeduplicationConfig :=
  let errs := validateConfig config
  if errs.length ≠ 0 then
    Except.error ("Invalid config: " ++ String.intercalate ", " errs)
  else Except.ok config

/-- `String.prototype.trim` on `String`. -/
def jsTrim (s : String) : String := ⟨jsTrimList s.data⟩

/-- The main loop of `findDuplicates`: walk the unique list; a company that
is already `processed` is skipped; otherwise run the matcher against the
whole unique list, and when it returns matches emit a group and mark the
company and every matched candidate processed. -/
def findDuplicatesLoop (config : DeduplicationConfig) (all : List String) :
    List String → List String → List DuplicateGroup
  | [], _ => []
  | company :: rest, processed =>
    if company ∈ processed then findDuplicatesLoop config all rest processed
    else
      let ms := findAllMatches company all config
      if ms.length ≠ 0 then
        { original := company
          duplicates := ms
          totalMatches := ms.length } ::
        findDuplicatesLoop config all rest
          (processed ++ company :: ms.map (fun m => m.candidate))
      else findDuplicatesLoop config all rest processed

/-- `CompanyDeduplicator.findDuplicates`: trim, drop blank entries,
deduplicate to first occurrences, then run the greedy grouping loop. -/
def findDuplicates (config : DeduplicationConfig) (companies : List String) :
    DeduplicationResult :=
  let uniqueCompanies := dedupFirst ((companies.map jsTrim).filter (fun c => c ≠ ""))
  { totalCompanies := uniqueCompanies.length
    duplicateGroups := findDuplicatesLoop config uniqueCompanies uniqueCompanies []
    config := config }

/-- `CompanyDeduplicator.findDuplicatesForCompany`: one matcher invocation
on the trimmed, blank-filtered candidate pool. -/
def findDuplicatesForCompany (config : DeduplicationConfig) (company : String)
    (candidates : List String) : List CompanyMatch :=
  findAllMatches company ((candidates.map jsTrim).filter (fun c => c ≠ "")) config

/-- The token-match confidence as the spec describes it: `tokenOverlap`
boosted by `+0.10`, capped at `1.0`, when `isLikelyGeographicVariant` holds.
(Stated from the spec's words for comparison; the source never applies this
boost.) -/
def specTokenConfidenceWithGeoBoost (n1 n2 : String) : ℚ :=
  let overlap := calculateTokenOverlap n1 n2
  if isLikelyGeographicVariant n1 n2 then min 1 (overlap + 1/10) else overlap

/-- The per-match facts shared by all four strategies. -/
def MatchProps (original : String) (candidates : List String) (m : CompanyMatch) : Prop :=
  m.original = original ∧ m.candidate ∈ candidates ∧ m.candidate ≠ original ∧
    0 ≤ m.confidence ∧ m.confidence ≤ 1 ∧ ∃ k : ℤ, m.confidence = (k : ℚ) / 1000

/-- A valid configuration used to exhibit the tie-breaking order of
`findAllMatches` (high-similarity and token thresholds `0.80`, partial
threshold `0.90`, confidence floor `0.75`, all normalization toggles off). -/
def tieBreakCfg : DeduplicationConfig :=
  { highSimilarityThreshold := 4/5
    tokenMatchThreshold := 4/5
    partialMatchThreshold := 9/10
    removeSuffixes := false
    handleAccents := false
    removeNumbers := false
    minConfidenceScore := 3/4
    maxResultsPerCompany := 10 }

/-- A valid configuration under which only the partial-match strategy fires
(threshold `0.70`), used to exhibit the greedy clustering chain
`"aaaa" → "aaaaa" ← "aaaaaaa"`. -/
def greedyChainCfg : DeduplicationConfig :=
  { highSimilarityThreshold := 19/20
    tokenMatchThreshold := 19/20
    partialMatchThreshold := 7/10
    removeSuffixes := false
    handleAccents := false
    removeNumbers := false
    minConfidenceScore := 3/5
    maxResultsPerCompany := 5 }

/-- No two adjacent whitespace characters (the shape `/\\s+/ → ' '` leaves
behind). -/
def SpRel (a d : Char) : Prop := ¬ (isJsSpace a = true ∧ isJsSpace d = true)

/-- A string with no leading, trailing or doubled whitespace. -/
def SpaceNormal (l : List Char) : Prop :=
  (∀ c, l.head? = some c → isJsSpace c = false) ∧
  (∀ c, l.getLast? = some c → isJsSpace c = false) ∧
  List.Chain' SpRel l

/-- Every character is a non-uppercase word character or a single space —
the character alphabet of normalizer output. -/
def CharCanon (l : List Char) : Prop :=
  ∀ c ∈ l, (isWordChar c = true ∧ ¬ (65 ≤ c.toNat ∧ c.toNat ≤ 90)) ∨ c = ' '

/-! ## Levenshtein-distance facts -/

set_option maxRecDepth 100000

theorem lev_nil_left (ys : List Char) :
    levenshtein Levenshtein.defaultCost [] ys = ys.length := by
  induction ys with
  | nil => simp
  | cons y ys ih => simp [ih]; omega

theorem lev_nil_right (xs : List Char) :
    levenshtein Levenshtein.defaultCost xs [] = xs.length := by
  induction xs with
  | nil => simp
  | cons x xs ih => simp [ih]; omega

theorem lev_symm (xs ys : List Char) :
    levenshtein Levenshtein.defaultCost xs ys =
      levenshtein Levenshtein.defaultCost ys xs := by
  induction xs generalizing ys with
  | nil => rw [lev_nil_left, lev_nil_right]
  | cons x xs ih =>
    induction ys with
    | nil => rw [lev_nil_left, lev_nil_right]
    | cons y ys ih2 =>
      rw [levenshtein_cons_cons, levenshtein_cons_cons]
      simp only [Levenshtein.defaultCost_delete, Levenshtein.defaultCost_insert,
        Levenshtein.defaultCost_substitute]
      rw [← ih2, ← ih (y :: ys), ← ih ys]
      have hxy : (if y = x then (0 : ℕ) else 1) = (if x = y then (0 : ℕ) else 1) := by
        by_cases h : x = y
        · simp [h]
        · rw [if_neg h, if_neg (fun hyx => h hyx.symm)]
      rw [hxy, min_left_comm]

theorem lev_le_max_length (xs ys : List Char) :
    levenshtein Levenshtein.defaultCost xs ys ≤ max xs.length ys.length := by
  induction xs generalizing ys with
  | nil => rw [lev_nil_left]; exact le_max_right _ _
  | cons x xs ih =>
    cases ys with
    | nil => rw [lev_nil_right]; exact le_max_left _ _
    | cons y ys =>
      rw [levenshtein_cons_cons]
      simp only [Levenshtein.defaultCost_delete, Levenshtein.defaultCost_insert,
        Levenshtein.defaultCost_substitute]
      have h3 : (if x = y then (0 : ℕ) else 1) + levenshtein Levenshtein.defaultCost xs ys ≤
          max (x :: xs).length (y :: ys).length := by
        have := ih ys
        have hle : (if x = y then (0 : ℕ) else 1) ≤ 1 := by split <;> omega
        simp only [List.length_cons]
        omega
      exact le_trans (min_le_right _ _) (le_trans (min_le_right _ _) h3)

theorem strLength_def (s : String) : s.length = s.data.length := rfl

theorem strEq_of_data : ∀ (a b : String), a.data = b.data → a = b
  | ⟨_⟩, ⟨_⟩, h => congrArg String.mk h

/-- Convenience: `calculateLevenshteinDistance` is symmetric. -/
theorem calculateLevenshteinDistance_symm (a b : String) :
    calculateLevenshteinDistance a b = calculateLevenshteinDistance b a := by
  unfold calculateLevenshteinDistance
  by_cases hab : a = b
  · rw [if_pos hab, if_pos hab.symm]
  · have hba : ¬ b = a := fun h => hab h.symm
    by_cases ha : a.length = 0 <;> by_cases hb : b.length = 0
    · exfalso
      apply hab
      apply strEq_of_data
      rw [strLength_def] at ha hb
      rw [List.length_eq_zero.mp ha, List.length_eq_zero.mp hb]
    · simp [hab, hba, ha, hb]
    · simp [hab, hba, ha, hb]
    · simp [hab, hba, ha, hb, lev_symm]

/-- `calculateLevenshteinDistance` is bounded by the longer length. -/
theorem calculateLevenshteinDistance_le (a b : String) :
    calculateLevenshteinDistance a b ≤ max a.length b.length := by
  unfold calculateLevenshteinDistance
  by_cases hab : a = b
  · simp [hab]
  · by_cases ha : a.length = 0 <;> by_cases hb : b.length = 0
    · simp [hab, ha, hb]
    · simp [hab, ha, hb]
    · simp [hab, ha, hb]
    · simp only [if_neg hab, if_neg ha, if_neg hb]
      have h := lev_le_max_length a.data b.data
      rw [strLength_def, strLength_def]
      exact h

/-- **C8.** Similarity is symmetric: `calculateSimilarity(a, b)` equals
`calculateSimilarity(b, a)` for all strings, and the similarity of two empty
strings is `1`. -/
theorem similarity_symm_and_empty :
    (∀ a b : String, calculateSimilarity a b = calculateSimilarity b a) ∧
      calculateSimilarity "" "" = 1 := by
  constructor
  · intro a b
    unfold calculateSimilarity
    rw [max_comm, calculateLevenshteinDistance_symm]
  · rfl

/-- **C9.** The three presets (in both copies of `config.ts` present in the
repository) carry exactly the spec table's values; `conservative`'s
`maxResultsPerCompany` is 10 in the current copy and 5 in the older copy,
both within the spec's 5–10 range; all presets fix `removeSuffixes = true`,
`handleAccents = true`, `removeNumbers = false`. -/
theorem presets_match_spec_table :
    (balancedPreset.highSimilarityThreshold = 85/100 ∧
     balancedPreset.tokenMatchThreshold = 80/100 ∧
     balancedPreset.partialMatchThreshold = 70/100 ∧
     balancedPreset.minConfidenceScore = 75/100 ∧
     balancedPreset.maxResultsPerCompany = 10) ∧
    (conservativePreset.highSimilarityThreshold = 92/100 ∧
     conservativePreset.tokenMatchThreshold = 88/100 ∧
     conservativePreset.partialMatchThreshold = 85/100 ∧
     conservativePreset.minConfidenceScore = 85/100 ∧
     5 ≤ conservativePreset.maxResultsPerCompany ∧
     conservativePreset.maxResultsPerCompany ≤ 10 ∧
     conservativePresetLegacy.highSimilarityThreshold = 92/100 ∧
     conservativePresetLegacy.tokenMatchThreshold = 88/100 ∧
     conservativePresetLegacy.partialMatchThreshold = 85/100 ∧
     conservativePresetLegacy.minConfidenceScore = 85/100 ∧
     5 ≤ conservativePresetLegacy.maxResultsPerCompany ∧
     conservativePresetLegacy.maxResultsPerCompany ≤ 10) ∧
    (aggressivePreset.highSimilarityThreshold = 78/100 ∧
     aggressivePreset.tokenMatchThreshold = 70/100 ∧
     aggressivePreset.partialMatchThreshold = 60/100 ∧
     aggressivePreset.minConfidenceScore = 60/100 ∧
     aggressivePreset.maxResultsPerCompany = 15) ∧
    (∀ p ∈ [conservativePreset, balancedPreset, aggressivePreset,
           conservativePresetLegacy, DEFAULT_CONFIG],
      p.removeSuffixes = true ∧ p.handleAccents = true ∧ p.removeNumbers = false) :=
  of_decide_eq_true (by with_unfolding_all rfl)

/-- **C6.** `validateConfig` produces one error message per violated field
(four thresholds outside `[0, 1]`, `maxResultsPerCompany ≤ 0`), without
stopping at the first violation; and the `CompanyDeduplicator` constructor
fails (throws) exactly when at least one field is out of range, before any
matching work. -/
theorem validateConfig_enumerates_all_violations (cfg : DeduplicationConfig) :
    ((validateConfig cfg).length =
      (if cfg.highSimilarityThreshold < 0 ∨ 1 < cfg.highSimilarityThreshold then 1 else 0) +
      (if cfg.tokenMatchThreshold < 0 ∨ 1 < cfg.tokenMatchThreshold then 1 else 0) +
      (if cfg.partialMatchThreshold < 0 ∨ 1 < cfg.partialMatchThreshold then 1 else 0) +
      (if cfg.minConfidenceScore < 0 ∨ 1 < cfg.minConfidenceScore then 1 else 0) +
      (if cfg.maxResultsPerCompany ≤ 0 then 1 else 0)) ∧
    ((∃ msg, mkCompanyDeduplicator cfg = Except.error msg) ↔
      ((cfg.highSimilarityThreshold < 0 ∨ 1 < cfg.highSimilarityThreshold) ∨
       (cfg.tokenMatchThreshold < 0 ∨ 1 < cfg.tokenMatchThreshold) ∨
       (cfg.partialMatchThreshold < 0 ∨ 1 < cfg.partialMatchThreshold) ∨
       (cfg.minConfidenceScore < 0 ∨ 1 < cfg.minConfidenceScore) ∨
       cfg.maxResultsPerCompany ≤ 0)) := by
  have hlen : (validateConfig cfg).length =
      (if cfg.highSimilarityThreshold < 0 ∨ 1 < cfg.highSimilarityThreshold then 1 else 0) +
      (if cfg.tokenMatchThreshold < 0 ∨ 1 < cfg.tokenMatchThreshold then 1 else 0) +
      (if cfg.partialMatchThreshold < 0 ∨ 1 < cfg.partialMatchThreshold then 1 else 0) +
      (if cfg.minConfidenceScore < 0 ∨ 1 < cfg.minConfidenceScore then 1 else 0) +
      (if cfg.maxResultsPerCompany ≤ 0 then 1 else 0) := by
    unfold validateConfig
    by_cases h1 : cfg.highSimilarityThreshold < 0 ∨ 1 < cfg.highSimilarityThreshold <;>
    by_cases h2 : cfg.tokenMatchThreshold < 0 ∨ 1 < cfg.tokenMatchThreshold <;>
    by_cases h3 : cfg.partialMatchThreshold < 0 ∨ 1 < cfg.partialMatchThreshold <;>
    by_cases h4 : cfg.minConfidenceScore < 0 ∨ 1 < cfg.minConfidenceScore <;>
    by_cases h5 : cfg.maxResultsPerCompany ≤ 0 <;>
      simp [h1, h2, h3, h4, h5]
  refine ⟨hlen, ?_⟩
  have herr : (∃ msg, mkCompanyDeduplicator cfg = Except.error msg) ↔
      (validateConfig cfg).length ≠ 0 := by
    by_cases h : (validateConfig cfg).length ≠ 0
    · simp [mkCompanyDeduplicator, h]
    · simp only [not_not] at h
      simp [mkCompanyDeduplicator, h]
  rw [herr, hlen]
  by_cases h1 : cfg.highSimilarityThreshold < 0 ∨ 1 < cfg.highSimilarityThreshold <;>
  by_cases h2 : cfg.tokenMatchThreshold < 0 ∨ 1 < cfg.tokenMatchThreshold <;>
  by_cases h3 : cfg.partialMatchThreshold < 0 ∨ 1 < cfg.partialMatchThreshold <;>
  by_cases h4 : cfg.minConfidenceScore < 0 ∨ 1 < cfg.minConfidenceScore <;>
  by_cases h5 : cfg.maxResultsPerCompany ≤ 0 <;>
    simp [h1, h2, h3, h4, h5]

/-! ## C1: the token-match strategy and the geographic boost -/

/-- **C1 counterexample.** For the query `"a b c montreal"` and candidate
`"a b c"` under the balanced preset, the spec's boosted confidence
(`0.75 + 0.10 = 0.85`) clears the token threshold `0.80`, yet
`findTokenMatches` accepts nothing: the code never applies the geographic
boost. -/
theorem token_match_geo_boost_refuted :
    balancedPreset.tokenMatchThreshold ≤
      specTokenConfidenceWithGeoBoost
        (normalizeCompanyName "a b c montreal" balancedPreset)
        (normalizeCompanyName "a b c" balancedPreset) ∧
    ¬ balancedPreset.tokenMatchThreshold ≤
      calculateTokenOverlap
        (normalizeCompanyName "a b c montreal" balancedPreset)
        (normalizeCompanyName "a b c" balancedPreset) ∧
    findTokenMatches "a b c montreal" ["a b c"] balancedPreset = [] :=
  of_decide_eq_true (by with_unfolding_all rfl)

/-- **C1 (amended).** The token-match strategy's confidence is the bare
`tokenOverlap` of the two normalized forms — no geographic boost is ever
applied (`isLikelyGeographicVariant` is dead code) — and a candidate is
accepted iff that raw overlap is `≥ config.tokenMatchThreshold`. -/
theorem findTokenMatches_no_geo_boost (original : String) (candidates : List String)
    (cfg : DeduplicationConfig) :
    (∀ c : String,
      (∃ m ∈ findTokenMatches original candidates cfg, m.candidate = c) ↔
        (c ∈ candidates ∧ c ≠ original ∧
          cfg.tokenMatchThreshold ≤
            calculateTokenOverlap (normalizeCompanyName original cfg)
              (normalizeCompanyName c cfg))) ∧
    (∀ m ∈ findTokenMatches original candidates cfg,
      m.confidence =
        roundTo3 (calculateTokenOverlap (normalizeCompanyName original cfg)
          (normalizeCompanyName m.candidate cfg)) ∧
      m.method = MatchMethod.token_match) := by
  constructor
  · intro c
    constructor
    · rintro ⟨m, hm, rfl⟩
      simp only [findTokenMatches, List.mem_filterMap] at hm
      obtain ⟨a, ha, hfa⟩ := hm
      by_cases h1 : a = original
      · rw [if_pos h1] at hfa; exact absurd hfa (by simp)
      · rw [if_neg h1] at hfa
        by_cases h2 : cfg.tokenMatchThreshold ≤
            calculateTokenOverlap (normalizeCompanyName original cfg)
              (normalizeCompanyName a cfg)
        · rw [if_pos h2] at hfa
          have hma := Option.some_injective _ hfa.symm
          subst hma
          exact ⟨ha, h1, h2⟩
        · rw [if_neg h2] at hfa; exact absurd hfa (by simp)
    · rintro ⟨hc, hne, hth⟩
      refine ⟨makeMatch original c (normalizeCompanyName original cfg)
        (normalizeCompanyName c cfg)
        (calculateTokenOverlap (normalizeCompanyName original cfg)
          (normalizeCompanyName c cfg)) MatchMethod.token_match, ?_, rfl⟩
      simp only [findTokenMatches, List.mem_filterMap]
      exact ⟨c, hc, by rw [if_neg hne, if_pos hth]⟩
  · intro m hm
    simp only [findTokenMatches, List.mem_filterMap] at hm
    obtain ⟨a, _, hfa⟩ := hm
    by_cases h1 : a = original
    · rw [if_pos h1] at hfa; exact absurd hfa (by simp)
    · rw [if_neg h1] at hfa
      by_cases h2 : cfg.tokenMatchThreshold ≤
          calculateTokenOverlap (normalizeCompanyName original cfg)
            (normalizeCompanyName a cfg)
      · rw [if_pos h2] at hfa
        have hma := Option.some_injective _ hfa.symm
        subst hma
        exact ⟨rfl, rfl⟩
      · rw [if_neg h2] at hfa; exact absurd hfa (by simp)

/-- **C1 (amended), witness.** `"Montreal Ubisoft"` has full token overlap
with `"Ubisoft Montreal"`, so the amended characterization produces it. -/
theorem findTokenMatches_no_geo_boost_witness :
    ∃ m ∈ findTokenMatches "Ubisoft Montreal" ["Montreal Ubisoft"] balancedPreset,
      m.candidate = "Montreal Ubisoft" :=
  ((findTokenMatches_no_geo_boost "Ubisoft Montreal" ["Montreal Ubisoft"]
      balancedPreset).1 "Montreal Ubisoft").mpr
    ⟨by simp, by decide, of_decide_eq_true (by with_unfolding_all rfl)⟩

/-! ## C3: the exact-after-normalization strategy and empty normal forms -/

/-- **C3 counterexample.** `"!"` and `"?"` are distinct raw names that both
normalize to the empty string under the default (balanced) configuration,
and `findExactMatches` *does* produce a confidence-1 match for them — the
code has no non-emptiness check. -/
theorem exact_match_empty_normal_forms :
    normalizeCompanyName "!" DEFAULT_CONFIG = "" ∧
    (findExactMatches "!" ["?"] DEFAULT_CONFIG).map
      (fun m => (m.candidate, m.confidence, m.normalizedOriginal, m.normalizedCandidate)) =
      [("?", 1, "", "")] :=
  of_decide_eq_true (by with_unfolding_all rfl)

theorem mem_findExactMatches_candidate_iff (original : String)
    (candidates : List String) (cfg : DeduplicationConfig) (c : String) :
    (∃ m ∈ findExactMatches original candidates cfg, m.candidate = c) ↔
      (c ∈ candidates ∧ c ≠ original ∧
        normalizeCompanyName c cfg = normalizeCompanyName original cfg) := by
  constructor
  · rintro ⟨m, hm, rfl⟩
    simp only [findExactMatches, List.mem_filterMap] at hm
    obtain ⟨a, ha, hfa⟩ := hm
    by_cases h1 : a = original
    · rw [if_pos h1] at hfa; exact absurd hfa (by simp)
    · rw [if_neg h1] at hfa
      by_cases h2 : normalizeCompanyName a cfg = normalizeCompanyName original cfg
      · rw [if_pos h2] at hfa
        have hma := Option.some_injective _ hfa.symm
        subst hma
        exact ⟨ha, h1, h2⟩
      · rw [if_neg h2] at hfa; exact absurd hfa (by simp)
  · rintro ⟨hc, hne, heq⟩
    refine ⟨makeMatch original c (normalizeCompanyName original cfg)
      (normalizeCompanyName c cfg) 1 MatchMethod.exact_after_normalization, ?_, rfl⟩
    simp only [findExactMatches, List.mem_filterMap]
    exact ⟨c, hc, by rw [if_neg hne, if_pos heq]⟩

theorem findExactMatches_fields (original : String) (candidates : List String)
    (cfg : DeduplicationConfig) :
    ∀ m ∈ findExactMatches original candidates cfg,
      m.confidence = 1 ∧ m.method = MatchMethod.exact_after_normalization := by
  have hround : roundTo3 1 = 1 := of_decide_eq_true (by with_unfolding_all rfl)
  intro m hm
  simp only [findExactMatches, List.mem_filterMap] at hm
  obtain ⟨a, _, hfa⟩ := hm
  by_cases h1 : a = original
  · rw [if_pos h1] at hfa; exact absurd hfa (by simp)
  · rw [if_neg h1] at hfa
    by_cases h2 : normalizeCompanyName a cfg = normalizeCompanyName original cfg
    · rw [if_pos h2] at hfa
      have hma := Option.some_injective _ hfa.symm
      subst hma
      exact ⟨hround, rfl⟩
    · rw [if_neg h2] at hfa; exact absurd hfa (by simp)

/-- **C3 (amended).** The exact-after-normalization strategy produces a
match (confidence `1.0`) iff the candidate differs from the query as a raw
string and their normalized forms are equal — *including* when both
normalize to the empty string. -/
theorem findExactMatches_iff_normalized_equal (original : String)
    (candidates : List String) (cfg : DeduplicationConfig) :
    (∀ c : String,
      (∃ m ∈ findExactMatches original candidates cfg, m.candidate = c) ↔
        (c ∈ candidates ∧ c ≠ original ∧
          normalizeCompanyName c cfg = normalizeCompanyName original cfg)) ∧
    (∀ m ∈ findExactMatches original candidates cfg,
      m.confidence = 1 ∧ m.method = MatchMethod.exact_after_normalization) :=
  ⟨fun c => mem_findExactMatches_candidate_iff original candidates cfg c,
   findExactMatches_fields original candidates cfg⟩

/-- **C3 (amended), witness.** `"Acme Inc"` and `"Acme Ltd"` normalize to
the same (nonempty) form, and the amended characterization produces the
match. -/
theorem findExactMatches_iff_witness :
    ∃ m ∈ findExactMatches "Acme Inc" ["Acme Ltd"] DEFAULT_CONFIG,
      m.candidate = "Acme Ltd" :=
  ((findExactMatches_iff_normalized_equal "Acme Inc" ["Acme Ltd"]
      DEFAULT_CONFIG).1 "Acme Ltd").mpr
    ⟨by simp, by decide, of_decide_eq_true (by with_unfolding_all rfl)⟩

/-! ## Pipeline invariants: confidences, reconciliation, ranking -/

theorem round_rat_mono {x y : ℚ} (hxy : x ≤ y) : round x ≤ round y := by
  rw [round_eq, round_eq]
  exact Int.floor_le_floor (by linarith)

theorem roundTo3_nonneg {q : ℚ} (h0 : 0 ≤ q) : 0 ≤ roundTo3 q := by
  unfold roundTo3
  apply div_nonneg _ (by norm_num)
  have h := round_rat_mono (show (0 : ℚ) ≤ q * 1000 by positivity)
  rw [round_zero] at h
  exact_mod_cast h

theorem roundTo3_le_one {q : ℚ} (h1 : q ≤ 1) : roundTo3 q ≤ 1 := by
  unfold roundTo3
  rw [div_le_one (by norm_num)]
  have hle : q * 1000 ≤ ((1000 : ℤ) : ℚ) := by push_cast; linarith
  have h := round_rat_mono hle
  rw [round_intCast] at h
  exact_mod_cast h

theorem calculateSimilarity_bounds (a b : String) :
    0 ≤ calculateSimilarity a b ∧ calculateSimilarity a b ≤ 1 := by
  simp only [calculateSimilarity]
  by_cases h : max a.length b.length = 0
  · rw [if_pos h]; norm_num
  · rw [if_neg h]
    have hd := calculateLevenshteinDistance_le a b
    have hpos : (0 : ℚ) < ((max a.length b.length : ℕ) : ℚ) := by
      exact_mod_cast Nat.pos_of_ne_zero h
    have hdq : ((calculateLevenshteinDistance a b : ℕ) : ℚ) ≤
        ((max a.length b.length : ℕ) : ℚ) := by exact_mod_cast hd
    have hd0 : (0 : ℚ) ≤ ((calculateLevenshteinDistance a b : ℕ) : ℚ) := by positivity
    constructor
    · apply div_nonneg _ (le_of_lt hpos)
      linarith
    · rw [div_le_one hpos]
      linarith

theorem calculateTokenOverlap_bounds (a b : String) :
    0 ≤ calculateTokenOverlap a b ∧ calculateTokenOverlap a b ≤ 1 := by
  simp only [calculateTokenOverlap]
  by_cases h : ((dedupFirst (extractTokens a)) ++
      (dedupFirst (extractTokens b)).filter
        (fun t => ¬ listHas (dedupFirst (extractTokens a)) t)).length > 0
  · rw [if_pos h]
    constructor
    · positivity
    · rw [div_le_one (by exact_mod_cast h)]
      have hle : ((dedupFirst (extractTokens a)).filter
            (fun t => listHas (dedupFirst (extractTokens b)) t)).length ≤
          ((dedupFirst (extractTokens a)) ++
            (dedupFirst (extractTokens b)).filter
              (fun t => ¬ listHas (dedupFirst (extractTokens a)) t)).length := by
        rw [List.length_append]
        have hf := List.length_filter_le
          (fun t => listHas (dedupFirst (extractTokens b)) t) (dedupFirst (extractTokens a))
        omega
      exact_mod_cast hle
  · rw [if_neg h]; norm_num

theorem makeMatch_props {original candidate no nc : String} {q : ℚ} {meth : MatchMethod}
    (hc : candidate ∈ candidates) (hne : candidate ≠ original)
    (h0 : 0 ≤ q) (h1 : q ≤ 1) :
    MatchProps original candidates (makeMatch original candidate no nc q meth) :=
  ⟨rfl, hc, hne, roundTo3_nonneg h0, roundTo3_le_one h1, ⟨round (q * 1000), rfl⟩⟩

theorem mem_findExactMatches_props (original : String) (candidates : List String)
    (cfg : DeduplicationConfig) :
    ∀ m ∈ findExactMatches original candidates cfg, MatchProps original candidates m := by
  intro m hm
  simp only [findExactMatches, List.mem_filterMap] at hm
  obtain ⟨a, ha, hfa⟩ := hm
  by_cases h1 : a = original
  · rw [if_pos h1] at hfa; exact absurd hfa (by simp)
  · rw [if_neg h1] at hfa
    by_cases h2 : normalizeCompanyName a cfg = normalizeCompanyName original cfg
    · rw [if_pos h2] at hfa
      have hma := Option.some_injective _ hfa.symm
      subst hma
      exact makeMatch_props ha h1 (by norm_num) (by norm_num)
    · rw [if_neg h2] at hfa; exact absurd hfa (by simp)

theorem mem_findHighSimilarityMatches_props (original : String) (candidates : List String)
    (cfg : DeduplicationConfig) :
    ∀ m ∈ findHighSimilarityMatches original candidates cfg,
      MatchProps original candidates m := by
  intro m hm
  simp only [findHighSimilarityMatches, List.mem_filterMap] at hm
  obtain ⟨a, ha, hfa⟩ := hm
  by_cases h1 : a = original
  · rw [if_pos h1] at hfa; exact absurd hfa (by simp)
  · rw [if_neg h1] at hfa
    by_cases h2 : cfg.highSimilarityThreshold ≤
        calculateSimilarity (normalizeCompanyName original cfg) (normalizeCompanyName a cfg)
    · rw [if_pos h2] at hfa
      have hma := Option.some_injective _ hfa.symm
      subst hma
      have hb := calculateSimilarity_bounds (normalizeCompanyName original cfg)
        (normalizeCompanyName a cfg)
      exact makeMatch_props ha h1 hb.1 hb.2
    · rw [if_neg h2] at hfa; exact absurd hfa (by simp)

theorem mem_findTokenMatches_props (original : String) (candidates : List String)
    (cfg : DeduplicationConfig) :
    ∀ m ∈ findTokenMatches original candidates cfg, MatchProps original candidates m := by
  intro m hm
  simp only [findTokenMatches, List.mem_filterMap] at hm
  obtain ⟨a, ha, hfa⟩ := hm
  by_cases h1 : a = original
  · rw [if_pos h1] at hfa; exact absurd hfa (by simp)
  · rw [if_neg h1] at hfa
    by_cases h2 : cfg.tokenMatchThreshold ≤
        calculateTokenOverlap (normalizeCompanyName original cfg) (normalizeCompanyName a cfg)
    · rw [if_pos h2] at hfa
      have hma := Option.some_injective _ hfa.symm
      subst hma
      have hb := calculateTokenOverlap_bounds (normalizeCompanyName original cfg)
        (normalizeCompanyName a cfg)
      exact makeMatch_props ha h1 hb.1 hb.2
    · rw [if_neg h2] at hfa; exact absurd hfa (by simp)

theorem mem_findPartialMatches_props (original : String) (candidates : List String)
    (cfg : DeduplicationConfig) :
    ∀ m ∈ findPartialMatches original candidates cfg, MatchProps original candidates m := by
  intro m hm
  simp only [findPartialMatches, List.mem_filterMap] at hm
  obtain ⟨a, ha, hfa⟩ := hm
  by_cases h1 : a = original
  · rw [if_pos h1] at hfa; exact absurd hfa (by simp)
  · rw [if_neg h1] at hfa
    set nO := normalizeCompanyName original cfg with hnO
    set nC := normalizeCompanyName a cfg with hnC
    set sh := if nO.length ≤ nC.length then nO else nC with hsh
    set lg := if sh = nO then nC else nO with hlg
    by_cases h3 : containsSeg lg.data sh.data = true
    · rw [if_pos h3] at hfa
      by_cases h4 : lg.length ≠ 0 ∧
          cfg.partialMatchThreshold ≤ (sh.length : ℚ) / (lg.length : ℚ)
      · rw [if_pos h4] at hfa
        have hma := Option.some_injective _ hfa.symm
        subst hma
        have hshlg : sh.length ≤ lg.length := by
          rw [hsh, hlg]
          by_cases hl : nO.length ≤ nC.length
          · rw [if_pos hl]
            rw [hsh, if_pos hl, if_pos rfl]
            exact hl
          · rw [if_neg hl]
            rw [hsh, if_neg hl]
            by_cases he : nC = nO
            · exact absurd (he ▸ le_refl nC.length) hl
            · rw [if_neg he]; omega
        have hlgpos : (0 : ℚ) < ((lg.length : ℕ) : ℚ) := by
          exact_mod_cast Nat.pos_of_ne_zero h4.1
        refine makeMatch_props ha h1 ?_ ?_
        · positivity
        · rw [div_le_one hlgpos]
          exact_mod_cast hshlg
      · rw [if_neg h4] at hfa; exact absurd hfa (by simp)
    · rw [if_neg h3] at hfa; exact absurd hfa (by simp)

theorem mem_combinedMatches_props (original : String) (candidates : List String)
    (cfg : DeduplicationConfig) :
    ∀ m ∈ combinedMatches original candidates cfg, MatchProps original candidates m := by
  intro m hm
  simp only [combinedMatches, List.mem_append] at hm
  rcases hm with ((h | h) | h) | h
  · exact mem_findExactMatches_props original candidates cfg m h
  · exact mem_findHighSimilarityMatches_props original candidates cfg m h
  · exact mem_findTokenMatches_props original candidates cfg m h
  · exact mem_findPartialMatches_props original candidates cfg m h

/-! ### Reconciliation-map lemmas -/

theorem bestMapInsert_mem {acc : List CompanyMatch} {x m : CompanyMatch}
    (h : m ∈ bestMapInsert acc x) : m ∈ acc ∨ m = x := by
  unfold bestMapInsert at h
  by_cases hk : acc.any (fun y => y.candidate = x.candidate)
  · rw [if_pos hk] at h
    obtain ⟨y, hy, hym⟩ := List.mem_map.mp h
    by_cases hcond : y.candidate = x.candidate ∧ y.confidence < x.confidence
    · rw [if_pos hcond] at hym; exact Or.inr hym.symm
    · rw [if_neg hcond] at hym; exact Or.inl (hym ▸ hy)
  · rw [if_neg hk] at h
    rcases List.mem_append.mp h with h' | h'
    · exact Or.inl h'
    · exact Or.inr (List.mem_singleton.mp h')

theorem bestMapInsert_keys (acc : List CompanyMatch) (x : CompanyMatch) :
    (bestMapInsert acc x).map (fun m => m.candidate) =
      if acc.any (fun y => y.candidate = x.candidate)
      then acc.map (fun m => m.candidate)
      else acc.map (fun m => m.candidate) ++ [x.candidate] := by
  unfold bestMapInsert
  by_cases hk : acc.any (fun y => y.candidate = x.candidate)
  · rw [if_pos hk, if_pos hk, List.map_map]
    apply List.map_congr_left
    intro y _
    by_cases hcond : y.candidate = x.candidate ∧ y.confidence < x.confidence
    · simp only [Function.comp_apply, if_pos hcond]
      exact hcond.1.symm
    · simp only [Function.comp_apply, if_neg hcond]
  · rw [if_neg hk, if_neg hk, List.map_append]
    rfl

theorem bestMapInsert_keys_nodup {acc : List CompanyMatch} {x : CompanyMatch}
    (h : (acc.map (fun m => m.candidate)).Nodup) :
    ((bestMapInsert acc x).map (fun m => m.candidate)).Nodup := by
  rw [bestMapInsert_keys]
  by_cases hk : acc.any (fun y => y.candidate = x.candidate)
  · rw [if_pos hk]; exact h
  · rw [if_neg hk]
    rw [List.nodup_append]
    refine ⟨h, List.nodup_singleton _, ?_⟩
    intro a ha hb
    rw [List.mem_singleton] at hb
    subst hb
    obtain ⟨y, hy, hyc⟩ := List.mem_map.mp ha
    rw [List.any_eq_true] at hk
    exact hk ⟨y, hy, by simp [hyc]⟩

theorem bestMapInsert_keeps {acc : List CompanyMatch} {x e : CompanyMatch}
    (he : e ∈ acc) (hconf : x.confidence ≤ e.confidence) :
    e ∈ bestMapInsert acc x := by
  unfold bestMapInsert
  by_cases hk : acc.any (fun y => y.candidate = x.candidate)
  · rw [if_pos hk]
    have hnc : ¬ (e.candidate = x.candidate ∧ e.confidence < x.confidence) := by
      rintro ⟨_, hlt⟩
      exact absurd hconf (not_le.mpr hlt)
    have heq : (fun y => if y.candidate = x.candidate ∧ y.confidence < x.confidence
        then x else y) e = e := if_neg hnc
    exact heq ▸ List.mem_map_of_mem _ he
  · rw [if_neg hk]
    exact List.mem_append.mpr (Or.inl he)

theorem foldl_bestMapInsert_mem :
    ∀ (l : List CompanyMatch) (acc : List CompanyMatch) (m : CompanyMatch),
      m ∈ l.foldl bestMapInsert acc → m ∈ acc ∨ m ∈ l := by
  intro l
  induction l with
  | nil => intro acc m h; exact Or.inl h
  | cons x xs ih =>
    intro acc m h
    rw [List.foldl_cons] at h
    rcases ih (bestMapInsert acc x) m h with h' | h'
    · rcases bestMapInsert_mem h' with h'' | h''
      · exact Or.inl h''
      · exact Or.inr (h'' ▸ List.mem_cons_self x xs)
    · exact Or.inr (List.mem_cons_of_mem x h')

theorem foldl_bestMapInsert_keys_nodup :
    ∀ (l : List CompanyMatch) (acc : List CompanyMatch),
      (acc.map (fun m => m.candidate)).Nodup →
      ((l.foldl bestMapInsert acc).map (fun m => m.candidate)).Nodup := by
  intro l
  induction l with
  | nil => intro acc h; exact h
  | cons x xs ih =>
    intro acc h
    rw [List.foldl_cons]
    exact ih _ (bestMapInsert_keys_nodup h)

theorem mem_reconcileMatches {l : List CompanyMatch} {m : CompanyMatch}
    (h : m ∈ reconcileMatches l) : m ∈ l := by
  rcases foldl_bestMapInsert_mem l [] m h with h' | h'
  · exact absurd h' (List.not_mem_nil m)
  · exact h'

theorem reconcileMatches_keys_nodup (l : List CompanyMatch) :
    ((reconcileMatches l).map (fun m => m.candidate)).Nodup :=
  foldl_bestMapInsert_keys_nodup l [] (by simp)

/-- The sticky-entry invariant: once an entry of maximal confidence is in
the map, later insertions never replace it (replacement requires a strictly
greater confidence), and with duplicate-free keys it stays the unique entry
for its candidate. -/
theorem foldl_bestMapInsert_sticky :
    ∀ (l : List CompanyMatch) (acc : List CompanyMatch) (e : CompanyMatch),
      (acc.map (fun m => m.candidate)).Nodup → e ∈ acc →
      (∀ x ∈ l, x.confidence ≤ e.confidence) →
      e ∈ l.foldl bestMapInsert acc ∧
        ∀ m ∈ l.foldl bestMapInsert acc, m.candidate = e.candidate → m = e := by
  intro l
  induction l with
  | nil =>
    intro acc e hnd he _
    refine ⟨he, fun m hm hmc => ?_⟩
    exact List.inj_on_of_nodup_map hnd hm he hmc
  | cons x xs ih =>
    intro acc e hnd he hconf
    rw [List.foldl_cons]
    exact ih (bestMapInsert acc x) e (bestMapInsert_keys_nodup hnd)
      (bestMapInsert_keeps he (hconf x (List.mem_cons_self x xs)))
      (fun y hy => hconf y (List.mem_cons_of_mem x hy))

/-- If the first occurrence of a candidate key in the pooled list has
maximal confidence, it is exactly what the reconciliation map retains for
that key. -/
theorem reconcileMatches_first_dominant (l1 l2 : List CompanyMatch) (e : CompanyMatch)
    (hpre : ∀ x ∈ l1, x.candidate ≠ e.candidate)
    (hconf : ∀ x ∈ l1 ++ e :: l2, x.confidence ≤ e.confidence) :
    e ∈ reconcileMatches (l1 ++ e :: l2) ∧
      ∀ m ∈ reconcileMatches (l1 ++ e :: l2), m.candidate = e.candidate → m = e := by
  unfold reconcileMatches
  rw [List.foldl_append, List.foldl_cons]
  have hacc1_nodup : ((l1.foldl bestMapInsert []).map (fun m => m.candidate)).Nodup :=
    foldl_bestMapInsert_keys_nodup l1 [] (by simp)
  have hacc1_mem : ∀ y ∈ l1.foldl bestMapInsert [], y ∈ l1 := by
    intro y hy
    rcases foldl_bestMapInsert_mem l1 [] y hy with h | h
    · exact absurd h (List.not_mem_nil y)
    · exact h
  have hnokey : ¬ (l1.foldl bestMapInsert []).any (fun y => y.candidate = e.candidate) := by
    rw [List.any_eq_true]
    rintro ⟨y, hy, hyc⟩
    exact hpre y (hacc1_mem y hy) (by simpa using hyc)
  have hacc2 : bestMapInsert (l1.foldl bestMapInsert []) e =
      (l1.foldl bestMapInsert []) ++ [e] := by
    simp only [bestMapInsert]
    rw [if_neg hnokey]
  rw [hacc2]
  apply foldl_bestMapInsert_sticky
  · rw [List.map_append]
    rw [List.nodup_append]
    refine ⟨hacc1_nodup, by simp, ?_⟩
    intro a ha hb
    simp only [List.map_cons, List.map_nil, List.mem_singleton] at hb
    subst hb
    obtain ⟨y, hy, hyc⟩ := List.mem_map.mp ha
    exact hpre y (hacc1_mem y hy) hyc
  · exact List.mem_append.mpr (Or.inr (List.mem_singleton.mpr rfl))
  · intro x hx
    exact hconf x (List.mem_append.mpr (Or.inr (List.mem_cons_of_mem e hx)))

/-- Duplicate-free lists embed into any list containing them. -/
theorem nodup_subset_length {α : Type} [DecidableEq α] (d u : List α)
    (hd : d.Nodup) (hsub : ∀ a ∈ d, a ∈ u) : d.length ≤ u.length := by
  have h1 : d.toFinset.card = d.length := List.toFinset_card_of_nodup hd
  have h2 : d.toFinset ⊆ u.toFinset := by
    intro a ha
    rw [List.mem_toFinset] at ha ⊢
    exact hsub a ha
  have h3 := Finset.card_le_card h2
  have h4 := List.toFinset_card_le u
  omega

/-! ### Stable-sort lemmas -/

theorem insertByConfidence_cons (m x : CompanyMatch) (xs : List CompanyMatch) :
    insertByConfidence m (x :: xs) =
      if m.confidence < x.confidence then x :: insertByConfidence m xs
      else m :: x :: xs := rfl

theorem sortByConfidenceDesc_cons (x : CompanyMatch) (xs : List CompanyMatch) :
    sortByConfidenceDesc (x :: xs) = insertByConfidence x (sortByConfidenceDesc xs) := rfl

theorem insertByConfidence_perm (m : CompanyMatch) (l : List CompanyMatch) :
    List.Perm (insertByConfidence m l) (m :: l) := by
  induction l with
  | nil => exact List.Perm.refl _
  | cons x xs ih =>
    rw [insertByConfidence_cons]
    by_cases hc : m.confidence < x.confidence
    · rw [if_pos hc]
      exact (List.Perm.cons x ih).trans (List.Perm.swap m x xs)
    · rw [if_neg hc]

theorem sortByConfidenceDesc_perm (l : List CompanyMatch) :
    List.Perm (sortByConfidenceDesc l) l := by
  induction l with
  | nil => exact List.Perm.refl _
  | cons x xs ih =>
    rw [sortByConfidenceDesc_cons]
    exact (insertByConfidence_perm x (sortByConfidenceDesc xs)).trans (List.Perm.cons x ih)

theorem insertByConfidence_sorted {m : CompanyMatch} {l : List CompanyMatch}
    (h : List.Pairwise (fun a b => b.confidence ≤ a.confidence) l) :
    List.Pairwise (fun a b => b.confidence ≤ a.confidence) (insertByConfidence m l) := by
  induction l with
  | nil => simp [insertByConfidence]
  | cons x xs ih =>
    rw [List.pairwise_cons] at h
    obtain ⟨hx, hxs⟩ := h
    rw [insertByConfidence_cons]
    by_cases hc : m.confidence < x.confidence
    · rw [if_pos hc]
      rw [List.pairwise_cons]
      refine ⟨?_, ih hxs⟩
      intro y hy
      rw [(insertByConfidence_perm m xs).mem_iff] at hy
      rcases List.mem_cons.mp hy with h' | h'
      · exact h' ▸ le_of_lt hc
      · exact hx y h'
    · rw [if_neg hc]
      rw [List.pairwise_cons]
      refine ⟨?_, List.pairwise_cons.mpr ⟨hx, hxs⟩⟩
      intro y hy
      rcases List.mem_cons.mp hy with h' | h'
      · exact h' ▸ le_of_not_lt hc
      · exact le_trans (hx y h') (le_of_not_lt hc)

theorem sortByConfidenceDesc_sorted (l : List CompanyMatch) :
    List.Pairwise (fun a b => b.confidence ≤ a.confidence) (sortByConfidenceDesc l) := by
  induction l with
  | nil => simp [sortByConfidenceDesc]
  | cons x xs ih =>
    rw [sortByConfidenceDesc_cons]
    exact insertByConfidence_sorted ih

theorem filter_insertByConfidence (m : CompanyMatch) (l : List CompanyMatch) (c : ℚ) :
    (insertByConfidence m l).filter (fun x => x.confidence = c) =
      ((m :: l).filter (fun x => x.confidence = c)) := by
  induction l with
  | nil => rfl
  | cons x xs ih =>
    rw [insertByConfidence_cons]
    by_cases hc : m.confidence < x.confidence
    · rw [if_pos hc]
      by_cases hm : m.confidence = c <;> by_cases hx : x.confidence = c
      · exact absurd (hm.trans hx.symm) (ne_of_lt hc)
      · simp [List.filter_cons, ih, hm, hx]
      · simp [List.filter_cons, ih, hm, hx]
      · simp [List.filter_cons, ih, hm, hx]
    · rw [if_neg hc]

theorem filter_sortByConfidenceDesc (l : List CompanyMatch) (c : ℚ) :
    (sortByConfidenceDesc l).filter (fun x => x.confidence = c) =
      l.filter (fun x => x.confidence = c) := by
  induction l with
  | nil => rfl
  | cons x xs ih =>
    rw [sortByConfidenceDesc_cons, filter_insertByConfidence]
    simp only [List.filter_cons, ih]

/-! ### The assembled matcher pipeline -/

theorem mem_findAllMatches_elim {m : CompanyMatch} {original : String}
    {candidates : List String} {cfg : DeduplicationConfig}
    (h : m ∈ findAllMatches original candidates cfg) :
    m ∈ reconcileMatches (combinedMatches original candidates cfg) ∧
      cfg.minConfidenceScore ≤ m.confidence := by
  unfold findAllMatches jsSlice at h
  have h1 : m ∈ sortByConfidenceDesc (survivingMatches original candidates cfg) :=
    List.mem_of_mem_take h
  have h2 : m ∈ survivingMatches original candidates cfg :=
    (sortByConfidenceDesc_perm _).mem_iff.mp h1
  unfold survivingMatches at h2
  have h3 := List.mem_filter.mp h2
  exact ⟨h3.1, of_decide_eq_true h3.2⟩

theorem validConfig_max_pos {cfg : DeduplicationConfig}
    (hv : validateConfig cfg = []) : 0 < cfg.maxResultsPerCompany := by
  by_contra hneg
  push_neg at hneg
  have hlen : 0 < (validateConfig cfg).length := by
    unfold validateConfig
    rw [if_pos hneg]
    simp only [List.length_append, List.length_cons, List.length_nil]
    omega
  rw [hv] at hlen
  simp at hlen

/-- **C10.** Output invariant of the matcher: under a valid configuration
every match returned by `findAllMatches` has a confidence in `[0, 1]` that
is an integer multiple of `1/1000` (three-decimal rounding) and at least
`config.minConfidenceScore`, its candidate differs from the query raw
string, the returned candidates are pairwise distinct, and the list length
is at most `config.maxResultsPerCompany`. -/
theorem findAllMatches_output_invariants (original : String) (candidates : List String)
    (cfg : DeduplicationConfig) (hv : validateConfig cfg = []) :
    (∀ m ∈ findAllMatches original candidates cfg,
      0 ≤ m.confidence ∧ m.confidence ≤ 1 ∧ (∃ k : ℤ, m.confidence = (k : ℚ) / 1000) ∧
        cfg.minConfidenceScore ≤ m.confidence ∧ m.candidate ≠ original) ∧
    ((findAllMatches original candidates cfg).map (fun m => m.candidate)).Nodup ∧
    ((findAllMatches original candidates cfg).length : ℤ) ≤ cfg.maxResultsPerCompany := by
  have hmax := validConfig_max_pos hv
  refine ⟨?_, ?_, ?_⟩
  · intro m hm
    obtain ⟨hrec, hmin⟩ := mem_findAllMatches_elim hm
    have hprops := mem_combinedMatches_props original candidates cfg m
      (mem_reconcileMatches hrec)
    obtain ⟨_, _, hne, h0, h1', hk⟩ := hprops
    exact ⟨h0, h1', hk, hmin, hne⟩
  · have h1 : ((reconcileMatches (combinedMatches original candidates cfg)).map
        (fun m => m.candidate)).Nodup := reconcileMatches_keys_nodup _
    have h2 : ((survivingMatches original candidates cfg).map
        (fun m => m.candidate)).Nodup := by
      unfold survivingMatches
      exact List.Nodup.sublist (List.Sublist.map _ (List.filter_sublist _)) h1
    have h3 : ((sortByConfidenceDesc (survivingMatches original candidates cfg)).map
        (fun m => m.candidate)).Nodup :=
      (((sortByConfidenceDesc_perm _).map _).nodup_iff).mpr h2
    unfold findAllMatches jsSlice
    exact List.Nodup.sublist (List.Sublist.map _ (List.take_sublist _ _)) h3
  · have hlen : (findAllMatches original candidates cfg).length ≤
        cfg.maxResultsPerCompany.toNat := by
      unfold findAllMatches jsSlice
      rw [List.length_take]
      omega
    omega

/-- **C10, witness.** The invariant instantiated at the balanced preset on a
concrete query and pool. -/
theorem findAllMatches_output_invariants_witness :
    validateConfig balancedPreset = [] ∧
    ((findAllMatches "Ubisoft Montreal" ["Ubisoft Montréal Studio"]
        balancedPreset).map (fun m => m.candidate)).Nodup ∧
    ((findAllMatches "Ubisoft Montreal" ["Ubisoft Montréal Studio"]
        balancedPreset).length : ℤ) ≤ balancedPreset.maxResultsPerCompany := by
  have hv : validateConfig balancedPreset = [] :=
    of_decide_eq_true (by with_unfolding_all rfl)
  have h := findAllMatches_output_invariants "Ubisoft Montreal"
    ["Ubisoft Montréal Studio"] balancedPreset hv
  exact ⟨hv, h.2.1, h.2.2⟩

/-- **C4 counterexample.** Under `tieBreakCfg`, the pool
`["a b c dddd ee", "a b c ddxy"]` produces two matches of equal confidence
`0.8`, but they are returned in the order `ddxy` (high-similarity,
reconciled first) before `dddd ee` (token-match) — the *reverse* of the
candidate-pool order, refuting pool-order tie-breaking. -/
theorem ranking_tie_not_pool_order :
    (findAllMatches "a b c dddd" ["a b c dddd ee", "a b c ddxy"] tieBreakCfg).map
        (fun m => (m.candidate, m.confidence)) =
      [("a b c ddxy", 4/5), ("a b c dddd ee", 4/5)] ∧
    ("a b c ddxy" : String) ≠ "a b c dddd ee" ∧
    validateConfig tieBreakCfg = [] :=
  of_decide_eq_true (by with_unfolding_all rfl)

/-- **C4 (amended).** `findAllMatches` returns a list sorted by confidence
descending, truncated to at most `config.maxResultsPerCompany` entries; the
sort is stable with respect to the *reconciliation-map order* (first
insertion by a strategy, in strategy order exact → high-similarity → token →
partial, then pool order within a strategy) — not with respect to the raw
candidate-pool order. -/
theorem findAllMatches_ranking_stable (original : String) (candidates : List String)
    (cfg : DeduplicationConfig) :
    List.Pairwise (fun a b => b.confidence ≤ a.confidence)
      (findAllMatches original candidates cfg) ∧
    (findAllMatches original candidates cfg).length ≤ cfg.maxResultsPerCompany.toNat ∧
    (∀ c : ℚ,
      (sortByConfidenceDesc (survivingMatches original candidates cfg)).filter
          (fun m => m.confidence = c) =
        (survivingMatches original candidates cfg).filter
          (fun m => m.confidence = c)) := by
  refine ⟨?_, ?_, ?_⟩
  · unfold findAllMatches jsSlice
    exact List.Pairwise.sublist (List.take_sublist _ _) (sortByConfidenceDesc_sorted _)
  · unfold findAllMatches jsSlice
    rw [List.length_take]
    omega
  · intro c
    exact filter_sortByConfidenceDesc _ c

/-- First-occurrence decomposition of a list along a decidable predicate. -/
theorem exists_first_split {α : Type} (p : α → Prop) [DecidablePred p] :
    ∀ (l : List α), (∃ a ∈ l, p a) →
      ∃ l1 a l2, l = l1 ++ a :: l2 ∧ p a ∧ ∀ x ∈ l1, ¬ p x := by
  intro l
  induction l with
  | nil =>
    rintro ⟨a, ha, _⟩
    exact absurd ha (List.not_mem_nil a)
  | cons x xs ih =>
    rintro ⟨a, ha, hpa⟩
    by_cases hx : p x
    · exact ⟨[], x, xs, rfl, hx, by simp⟩
    · rcases List.mem_cons.mp ha with h | h
      · exact absurd (h ▸ hpa) hx
      · obtain ⟨l1, b, l2, heq, hpb, hpre⟩ := ih ⟨a, h, hpa⟩
        refine ⟨x :: l1, b, l2, by rw [heq]; rfl, hpb, ?_⟩
        intro y hy
        rcases List.mem_cons.mp hy with h' | h'
        · exact h' ▸ hx
        · exact hpre y h'

/-- **C5.** If a candidate in the pool is raw-distinct from the query but
normalizes identically, then (whenever the confidence floor is at most `1`
and `maxResultsPerCompany` is large enough to retain everything)
`findAllMatches` reports that candidate, and the reported match has
confidence exactly `1` with method `exact_after_normalization` — no other
strategy's result survives reconciliation for that candidate. -/
theorem exact_match_dominates (original c : String) (candidates : List String)
    (cfg : DeduplicationConfig)
    (hc : c ∈ candidates) (hne : c ≠ original)
    (heq : normalizeCompanyName c cfg = normalizeCompanyName original cfg)
    (hmin : cfg.minConfidenceScore ≤ 1)
    (hmax : (candidates.length : ℤ) ≤ cfg.maxResultsPerCompany) :
    (∃ m ∈ findAllMatches original candidates cfg, m.candidate = c) ∧
    (∀ m ∈ findAllMatches original candidates cfg, m.candidate = c →
      m.confidence = 1 ∧ m.method = MatchMethod.exact_after_normalization) := by
  obtain ⟨e0, he0, he0c⟩ :=
    (mem_findExactMatches_candidate_iff original candidates cfg c).mpr ⟨hc, hne, heq⟩
  obtain ⟨l1, e, l2, hsplit, hpe, hpre⟩ :=
    exists_first_split (fun m => m.candidate = c)
      (findExactMatches original candidates cfg) ⟨e0, he0, he0c⟩
  have hemem : e ∈ findExactMatches original candidates cfg := by
    rw [hsplit]
    exact List.mem_append.mpr (Or.inr (List.mem_cons_self e l2))
  have hef := findExactMatches_fields original candidates cfg e hemem
  have hcombined : combinedMatches original candidates cfg =
      l1 ++ e :: (l2 ++ (findHighSimilarityMatches original candidates cfg ++
        (findTokenMatches original candidates cfg ++
          findPartialMatches original candidates cfg))) := by
    unfold combinedMatches
    rw [hsplit]
    simp [List.append_assoc]
  have hpre' : ∀ x ∈ l1, x.candidate ≠ e.candidate := by
    intro x hx
    rw [hpe]
    exact hpre x hx
  have hconf' : ∀ x ∈ l1 ++ e :: (l2 ++ (findHighSimilarityMatches original candidates cfg ++
      (findTokenMatches original candidates cfg ++
        findPartialMatches original candidates cfg))), x.confidence ≤ e.confidence := by
    intro x hx
    rw [← hcombined] at hx
    have := (mem_combinedMatches_props original candidates cfg x hx).2.2.2.2.1
    rw [hef.1]
    exact this
  have hdom := reconcileMatches_first_dominant l1 _ e hpre' hconf'
  rw [← hcombined] at hdom
  have hes : e ∈ survivingMatches original candidates cfg := by
    unfold survivingMatches
    refine List.mem_filter.mpr ⟨hdom.1, ?_⟩
    apply decide_eq_true
    rw [hef.1]
    exact hmin
  have hsuniq : ∀ m ∈ survivingMatches original candidates cfg,
      m.candidate = c → m = e := by
    intro m hm hmc
    unfold survivingMatches at hm
    exact hdom.2 m (List.mem_filter.mp hm).1 (by rw [hmc, hpe])
  have hlenrec : (reconcileMatches (combinedMatches original candidates cfg)).length ≤
      candidates.length := by
    have hnodup := reconcileMatches_keys_nodup (combinedMatches original candidates cfg)
    have hsub : ∀ a ∈ (reconcileMatches
        (combinedMatches original candidates cfg)).map (fun m => m.candidate),
        a ∈ candidates := by
      intro a ha
      obtain ⟨m, hm, rfl⟩ := List.mem_map.mp ha
      exact (mem_combinedMatches_props original candidates cfg m
        (mem_reconcileMatches hm)).2.1
    have h := nodup_subset_length _ candidates hnodup hsub
    simpa using h
  have hlensurv : (survivingMatches original candidates cfg).length ≤
      candidates.length := by
    refine le_trans ?_ hlenrec
    unfold survivingMatches
    exact List.length_filter_le _ _
  have htake : findAllMatches original candidates cfg =
      sortByConfidenceDesc (survivingMatches original candidates cfg) := by
    unfold findAllMatches jsSlice
    apply List.take_of_length_le
    rw [(sortByConfidenceDesc_perm _).length_eq]
    omega
  constructor
  · refine ⟨e, ?_, hpe⟩
    rw [htake]
    exact (sortByConfidenceDesc_perm _).mem_iff.mpr hes
  · intro m hm hmc
    rw [htake] at hm
    have hm' := (sortByConfidenceDesc_perm _).mem_iff.mp hm
    have hme := hsuniq m hm' hmc
    rw [hme]
    exact hef

/-- **C5, witness.** `"Acme Inc"` and `"Acme Ltd"` normalize identically
under the balanced preset, and `findAllMatches` reports the candidate. -/
theorem exact_match_dominates_witness :
    ∃ m ∈ findAllMatches "Acme Inc" ["Acme Ltd"] balancedPreset,
      m.candidate = "Acme Ltd" :=
  (exact_match_dominates "Acme Inc" "Acme Ltd" ["Acme Ltd"] balancedPreset
    (by simp) (by decide)
    (of_decide_eq_true (by with_unfolding_all rfl))
    (of_decide_eq_true (by with_unfolding_all rfl))
    (by decide)).1

/-! ## C2: the greedy clustering loop -/

theorem dedupFirst_nodup {α : Type} [DecidableEq α] (l : List α) :
    (dedupFirst l).Nodup := by
  induction l with
  | nil => simp [dedupFirst]
  | cons x xs ih =>
    simp only [dedupFirst]
    rw [List.nodup_cons]
    constructor
    · intro hmem
      have h := List.mem_filter.mp hmem
      simp at h
    · exact List.Nodup.filter _ ih

theorem findDuplicatesLoop_cons (config : DeduplicationConfig) (all : List String)
    (company : String) (rest processed : List String) :
    findDuplicatesLoop config all (company :: rest) processed =
      if company ∈ processed then findDuplicatesLoop config all rest processed
      else
        if (findAllMatches company all config).length ≠ 0 then
          { original := company
            duplicates := findAllMatches company all config
            totalMatches := (findAllMatches company all config).length } ::
          findDuplicatesLoop config all rest
            (processed ++ company ::
              (findAllMatches company all config).map (fun m => m.candidate))
        else findDuplicatesLoop config all rest processed := rfl

theorem findDuplicatesLoop_originals_sublist (config : DeduplicationConfig)
    (all : List String) :
    ∀ (l processed : List String),
      List.Sublist ((findDuplicatesLoop config all l processed).map
        (fun g => g.original)) l := by
  intro l
  induction l with
  | nil =>
    intro processed
    simp [findDuplicatesLoop]
  | cons company rest ih =>
    intro processed
    rw [findDuplicatesLoop_cons]
    by_cases h1 : company ∈ processed
    · rw [if_pos h1]
      exact (ih processed).cons company
    · rw [if_neg h1]
      by_cases h2 : (findAllMatches company all config).length ≠ 0
      · rw [if_pos h2]
        simp only [List.map_cons]
        exact (ih _).cons₂ company
      · rw [if_neg h2]
        exact (ih processed).cons company

/-- **C2 counterexample.** Under `greedyChainCfg` the input
`["aaaa", "aaaaa", "aaaaaaa"]` groups as `("aaaa", ["aaaaa"])` and then
`("aaaaaaa", ["aaaaa"])`: the raw name `"aaaaa"` appears as a match-target
in *two* distinct groups, because a claimed match-target is only excluded
from becoming a representative, not from being matched again. -/
theorem match_target_in_two_groups :
    ((findDuplicates greedyChainCfg ["aaaa", "aaaaa", "aaaaaaa"]).duplicateGroups.countP
      (fun g => g.duplicates.any (fun m => m.candidate = "aaaaa"))) = 2 ∧
    validateConfig greedyChainCfg = [] :=
  of_decide_eq_true (by with_unfolding_all rfl)

/-- **C2 (amended).** In every `DeduplicationResult` produced by
`findDuplicates`, each raw name appears as the representative of at most one
`DuplicateGroup` (the representatives are pairwise distinct); a raw name
*can* appear as a match-target in more than one group, since being claimed
only stops a name from becoming a future representative. -/
theorem findDuplicates_representatives_unique (config : DeduplicationConfig)
    (companies : List String) :
    ((findDuplicates config companies).duplicateGroups.map
      (fun g => g.original)).Nodup := by
  unfold findDuplicates
  exact List.Nodup.sublist
    (findDuplicatesLoop_originals_sublist config _ _ [])
    (dedupFirst_nodup _)

/-! ## C7: idempotence of normalization -/

/-! ### Character-level facts -/

theorem toNat_ofNat_small {n : Nat} (h2 : n ≤ 122) : (Char.ofNat n).toNat = n := by
  have hv : n.isValidChar := Or.inl (by omega)
  rw [Char.ofNat, dif_pos hv]
  simp [Char.ofNatAux, Char.toNat, UInt32.toNat]

theorem jsToLowerChar_no_upper (c : Char) :
    ¬ (65 ≤ (jsToLowerChar c).toNat ∧ (jsToLowerChar c).toNat ≤ 90) := by
  unfold jsToLowerChar
  by_cases h : 65 ≤ c.toNat ∧ c.toNat ≤ 90
  · rw [if_pos h]
    rw [toNat_ofNat_small (by omega)]
    omega
  · rw [if_neg h]
    exact h

theorem jsToLowerChar_fix {c : Char} (h : ¬ (65 ≤ c.toNat ∧ c.toNat ≤ 90)) :
    jsToLowerChar c = c := by
  unfold jsToLowerChar
  rw [if_neg h]

theorem isWordChar_eq_true_iff (c : Char) : isWordChar c = true ↔
    ((97 ≤ c.toNat ∧ c.toNat ≤ 122) ∨ (65 ≤ c.toNat ∧ c.toNat ≤ 90) ∨
      (48 ≤ c.toNat ∧ c.toNat ≤ 57) ∨ c.toNat = 95) := by
  simp [isWordChar]
  tauto

theorem isJsSpace_eq_true_iff (c : Char) : isJsSpace c = true ↔
    (c.toNat = 32 ∨ c.toNat = 9 ∨ c.toNat = 10 ∨ c.toNat = 0xb ∨ c.toNat = 0xc ∨
      c.toNat = 13 ∨ c.toNat = 0xa0 ∨ c.toNat = 0x1680 ∨
      (0x2000 ≤ c.toNat ∧ c.toNat ≤ 0x200a) ∨ c.toNat = 0x2028 ∨ c.toNat = 0x2029 ∨
      c.toNat = 0x202f ∨ c.toNat = 0x205f ∨ c.toNat = 0x3000 ∨ c.toNat = 0xfeff) := by
  simp [isJsSpace]
  tauto

theorem isDigitChar_eq_true_iff (c : Char) : isDigitChar c = true ↔
    (48 ≤ c.toNat ∧ c.toNat ≤ 57) := by
  simp [isDigitChar]

theorem word_not_jsSpace {c : Char} (h : isWordChar c = true) : isJsSpace c = false := by
  rw [isWordChar_eq_true_iff] at h
  rw [Bool.eq_false_iff]
  intro hs
  rw [isJsSpace_eq_true_iff] at hs
  omega

theorem word_le_122 {c : Char} (h : isWordChar c = true) : c.toNat ≤ 122 := by
  rw [isWordChar_eq_true_iff] at h
  omega

theorem space_char_facts :
    isJsSpace ' ' = true ∧ isWordChar ' ' = false ∧ jsToLowerChar ' ' = ' ' ∧
      nfdChar ' ' = [' '] ∧ isCombiningMark ' ' = false ∧ isDigitChar ' ' = false := by
  refine ⟨by decide, by decide, ?_, by decide, by decide, by decide⟩
  unfold jsToLowerChar
  rw [if_neg (by decide)]

theorem nfdTable_keys_large : ∀ p ∈ NFD_TABLE, 224 ≤ p.1.toNat := by decide

theorem nfdTable_vals_ranges : ∀ p ∈ NFD_TABLE, ∀ d ∈ p.2,
    (97 ≤ d.toNat ∧ d.toNat ≤ 122) ∨ (768 ≤ d.toNat ∧ d.toNat ≤ 807) := by decide

theorem nfdChar_eq_self {c : Char} (hle : c.toNat ≤ 191) : nfdChar c = [c] := by
  unfold nfdChar
  cases hfind : NFD_TABLE.find? (fun p => p.1 = c) with
  | none => rfl
  | some p =>
    exfalso
    have hp := List.mem_of_find?_eq_some hfind
    have hkey : p.1 = c := by
      have h := List.find?_some hfind
      exact of_decide_eq_true h
    have hge := nfdTable_keys_large p hp
    rw [hkey] at hge
    omega

theorem nfdChar_chars (c : Char) : ∀ d ∈ nfdChar c,
    d = c ∨ (97 ≤ d.toNat ∧ d.toNat ≤ 122) ∨ (768 ≤ d.toNat ∧ d.toNat ≤ 807) := by
  intro d hd
  unfold nfdChar at hd
  cases hfind : NFD_TABLE.find? (fun p => p.1 = c) with
  | none =>
    rw [hfind] at hd
    exact Or.inl (List.mem_singleton.mp hd)
  | some p =>
    rw [hfind] at hd
    exact Or.inr (nfdTable_vals_ranges p (List.mem_of_find?_eq_some hfind) d hd)

theorem nfdChar_no_upper {c : Char} (hc : ¬ (65 ≤ c.toNat ∧ c.toNat ≤ 90)) :
    ∀ d ∈ nfdChar c, ¬ (65 ≤ d.toNat ∧ d.toNat ≤ 90) := by
  intro d hd
  rcases nfdChar_chars c d hd with rfl | h | h
  · exact hc
  · omega
  · omega

/-! ### Stage fixpoints on canonical strings -/

theorem map_jsToLowerChar_fix {l : List Char}
    (h : ∀ c ∈ l, ¬ (65 ≤ c.toNat ∧ c.toNat ≤ 90)) : l.map jsToLowerChar = l := by
  have hcongr := List.map_congr_left (l := l) (f := jsToLowerChar) (g := id)
    (fun c hc => jsToLowerChar_fix (h c hc))
  rw [hcongr, List.map_id]

theorem flatMap_nfd_fix {l : List Char} (h : ∀ c ∈ l, nfdChar c = [c]) :
    l.flatMap nfdChar = l := by
  induction l with
  | nil => rfl
  | cons c rest ih =>
    rw [List.flatMap_cons, h c (List.mem_cons_self c rest),
      ih (fun d hd => h d (List.mem_cons_of_mem c hd))]
    rfl

theorem removeAccentsList_fix {l : List Char} (h : ∀ c ∈ l, c.toNat ≤ 191) :
    removeAccentsList l = l := by
  unfold removeAccentsList
  rw [flatMap_nfd_fix (fun c hc => nfdChar_eq_self (h c hc))]
  apply List.filter_eq_self.mpr
  intro c hc
  apply decide_eq_true
  have := h c hc
  simp only [isCombiningMark]
  intro hcomb
  rw [Bool.and_eq_true, decide_eq_true_eq, decide_eq_true_eq] at hcomb
  omega

theorem filter_not_digit_fix {l : List Char} (h : ∀ c ∈ l, isDigitChar c = false) :
    l.filter (fun c => ¬ isDigitChar c) = l := by
  apply List.filter_eq_self.mpr
  intro c hc
  apply decide_eq_true
  rw [h c hc]
  simp

theorem punctMap_fix {l : List Char}
    (h : ∀ c ∈ l, isWordChar c = true ∨ isJsSpace c = true) :
    l.map (fun c => if ¬ isWordChar c ∧ ¬ isJsSpace c then ' ' else c) = l := by
  have hcongr := List.map_congr_left
    (l := l) (f := fun c => if ¬ isWordChar c ∧ ¬ isJsSpace c then ' ' else c) (g := id)
    (fun c hc => by
      rcases h c hc with hw | hs
      · exact if_neg (fun hcond => hcond.1 hw)
      · exact if_neg (fun hcond => hcond.2 hs))
  rw [hcongr, List.map_id]

theorem collapseSpacesAux_cons (b : Bool) (c : Char) (rest : List Char) :
    collapseSpacesAux b (c :: rest) =
      if isJsSpace c then
        (if b then collapseSpacesAux true rest else ' ' :: collapseSpacesAux true rest)
      else c :: collapseSpacesAux false rest := rfl

theorem collapseSpacesAux_fix :
    ∀ (l : List Char) (b : Bool),
      (∀ c ∈ l, isJsSpace c = true → c = ' ') →
      List.Chain' SpRel l →
      (b = true → ∀ c, l.head? = some c → isJsSpace c = false) →
      collapseSpacesAux b l = l := by
  intro l
  induction l with
  | nil => intro b _ _ _; rfl
  | cons c rest ih =>
    intro b hall hchain hhead
    have hall' : ∀ d ∈ rest, isJsSpace d = true → d = ' ' :=
      fun d hd => hall d (List.mem_cons_of_mem c hd)
    have hchain' : List.Chain' SpRel rest := hchain.tail
    by_cases hs : isJsSpace c = true
    · cases b with
      | true => exact absurd hs (Bool.eq_false_iff.mp (hhead rfl c rfl))
      | false =>
        rw [collapseSpacesAux_cons, if_pos hs, if_neg (by simp)]
        have hheadrest : ∀ d, rest.head? = some d → isJsSpace d = false := by
          intro d hd
          cases rest with
          | nil => exact absurd hd (by simp)
          | cons d0 rest2 =>
            have hd0 : d0 = d := Option.some_injective _ hd
            subst hd0
            have hrel : SpRel c d0 := (List.chain'_cons.mp hchain).1
            exact Bool.eq_false_iff.mpr (fun hdt => hrel ⟨hs, hdt⟩)
        have hrest : collapseSpacesAux true rest = rest :=
          ih true hall' hchain' (fun _ => hheadrest)
        rw [hrest, hall c (List.mem_cons_self c rest) hs]
    · rw [collapseSpacesAux_cons, if_neg hs]
      have hrest : collapseSpacesAux false rest = rest :=
        ih false hall' hchain' (fun h => absurd h (by simp))
      rw [hrest]

/-! ### Structure of collapse and trim output -/

theorem head_dropWhile_false (p : Char → Bool) (l : List Char) :
    ∀ c, (l.dropWhile p).head? = some c → p c = false := by
  induction l with
  | nil => intro c hc; exact absurd hc (by simp)
  | cons x xs ih =>
    intro c hc
    rw [List.dropWhile_cons] at hc
    by_cases hx : p x = true
    · rw [if_pos hx] at hc
      exact ih c hc
    · rw [if_neg hx] at hc
      have hxc : x = c := Option.some_injective _ hc
      subst hxc
      exact Bool.eq_false_iff.mpr hx

theorem dropWhile_eq_self_of_head (p : Char → Bool) (l : List Char)
    (h : ∀ c, l.head? = some c → p c = false) : l.dropWhile p = l := by
  cases l with
  | nil => rfl
  | cons x xs =>
    rw [List.dropWhile_cons, if_neg (by rw [h x rfl]; simp)]

theorem jsTrimList_fix {l : List Char} (hsn : SpaceNormal l) : jsTrimList l = l := by
  obtain ⟨hhead, hlast, _⟩ := hsn
  unfold jsTrimList
  rw [dropWhile_eq_self_of_head _ _ hhead,
    dropWhile_eq_self_of_head _ _ (fun c hc => hlast c (by rwa [List.head?_reverse] at hc)),
    List.reverse_reverse]

theorem mem_jsTrimList {l : List Char} {c : Char} (h : c ∈ jsTrimList l) : c ∈ l := by
  unfold jsTrimList at h
  rw [List.mem_reverse] at h
  have h2 := (List.dropWhile_sublist _).subset h
  rw [List.mem_reverse] at h2
  exact (List.dropWhile_sublist _).subset h2

theorem jsTrimList_head_not (l : List Char) :
    ∀ c, (jsTrimList l).head? = some c → isJsSpace c = false := by
  intro c hc
  unfold jsTrimList at hc
  have hsuf : ((l.dropWhile isJsSpace).reverse.dropWhile isJsSpace) <:+
      (l.dropWhile isJsSpace).reverse := List.dropWhile_suffix _
  have hpre : ((l.dropWhile isJsSpace).reverse.dropWhile isJsSpace).reverse <+:
      l.dropWhile isJsSpace := by
    have h := List.reverse_prefix.mpr hsuf
    rwa [List.reverse_reverse] at h
  obtain ⟨s, hs⟩ := hpre
  cases hrev : ((l.dropWhile isJsSpace).reverse.dropWhile isJsSpace).reverse with
  | nil => rw [hrev] at hc; exact absurd hc (by simp)
  | cons c0 cs =>
    rw [hrev] at hc
    have hc0 : c0 = c := Option.some_injective _ hc
    subst hc0
    rw [hrev] at hs
    have hhead : (l.dropWhile isJsSpace).head? = some c0 := by
      rw [← hs]; rfl
    exact head_dropWhile_false _ _ c0 hhead

theorem jsTrimList_last_not (l : List Char) :
    ∀ c, (jsTrimList l).getLast? = some c → isJsSpace c = false := by
  intro c hc
  unfold jsTrimList at hc
  rw [List.getLast?_reverse] at hc
  exact head_dropWhile_false _ _ c hc

theorem jsTrimList_chain {l : List Char} (h : List.Chain' SpRel l) :
    List.Chain' SpRel (jsTrimList l) := by
  unfold jsTrimList
  have h1 : List.Chain' SpRel (l.dropWhile isJsSpace) :=
    h.suffix (List.dropWhile_suffix _)
  have h2 : List.Chain' SpRel (l.dropWhile isJsSpace).reverse := by
    rw [List.chain'_reverse]
    exact h1.imp (fun a d hab => fun hp => hab ⟨hp.2, hp.1⟩)
  have h3 : List.Chain' SpRel ((l.dropWhile isJsSpace).reverse.dropWhile isJsSpace) :=
    h2.suffix (List.dropWhile_suffix _)
  rw [List.chain'_reverse]
  exact h3.imp (fun a d hab => fun hp => hab ⟨hp.2, hp.1⟩)

theorem jsTrimList_spaceNormal (l : List Char) (h : List.Chain' SpRel l) :
    SpaceNormal (jsTrimList l) :=
  ⟨jsTrimList_head_not l, jsTrimList_last_not l, jsTrimList_chain h⟩

theorem mem_collapseSpacesAux :
    ∀ (l : List Char) (b : Bool) (c : Char), c ∈ collapseSpacesAux b l →
      c = ' ' ∨ (c ∈ l ∧ isJsSpace c = false) := by
  intro l
  induction l with
  | nil => intro b c hc; exact absurd hc (List.not_mem_nil c)
  | cons x xs ih =>
    intro b c hc
    rw [collapseSpacesAux_cons] at hc
    by_cases hx : isJsSpace x = true
    · cases b with
      | true =>
        rw [if_pos hx, if_pos rfl] at hc
        rcases ih true c hc with h | ⟨hm, hns⟩
        · exact Or.inl h
        · exact Or.inr ⟨List.mem_cons_of_mem x hm, hns⟩
      | false =>
        rw [if_pos hx, if_neg (by simp)] at hc
        rcases List.mem_cons.mp hc with h | h
        · exact Or.inl h
        · rcases ih true c h with h' | ⟨hm, hns⟩
          · exact Or.inl h'
          · exact Or.inr ⟨List.mem_cons_of_mem x hm, hns⟩
    · rw [if_neg hx] at hc
      rcases List.mem_cons.mp hc with h | h
      · exact Or.inr ⟨h ▸ List.mem_cons_self x xs, h ▸ Bool.eq_false_iff.mpr hx⟩
      · rcases ih false c h with h' | ⟨hm, hns⟩
        · exact Or.inl h'
        · exact Or.inr ⟨List.mem_cons_of_mem x hm, hns⟩

theorem collapseSpacesAux_head_true :
    ∀ (l : List Char) (c : Char), (collapseSpacesAux true l).head? = some c →
      isJsSpace c = false := by
  intro l
  induction l with
  | nil => intro c hc; exact absurd hc (by simp [collapseSpacesAux])
  | cons x xs ih =>
    intro c hc
    rw [collapseSpacesAux_cons] at hc
    by_cases hx : isJsSpace x = true
    · rw [if_pos hx, if_pos rfl] at hc
      exact ih c hc
    · rw [if_neg hx] at hc
      have hxc : x = c := Option.some_injective _ hc
      subst hxc
      exact Bool.eq_false_iff.mpr hx

theorem collapseSpacesAux_chain :
    ∀ (l : List Char) (b : Bool), List.Chain' SpRel (collapseSpacesAux b l) := by
  intro l
  induction l with
  | nil => intro b; simp [collapseSpacesAux]
  | cons x xs ih =>
    intro b
    rw [collapseSpacesAux_cons]
    by_cases hx : isJsSpace x = true
    · cases b with
      | true =>
        rw [if_pos hx, if_pos rfl]
        exact ih true
      | false =>
        rw [if_pos hx, if_neg (by simp)]
        rw [List.chain'_cons']
        refine ⟨?_, ih true⟩
        intro y hy
        have hyf : isJsSpace y = false := collapseSpacesAux_head_true xs y hy
        exact fun hp => (Bool.eq_false_iff.mp hyf) hp.2
    · rw [if_neg hx]
      rw [List.chain'_cons']
      refine ⟨?_, ih false⟩
      intro y hy
      exact fun hp => hx hp.1

/-! ### Split and join -/

theorem splitOnSpace_nil_eq : splitOnSpace [] = [[]] := rfl

theorem splitOnSpace_cons_space (rest : List Char) :
    splitOnSpace (' ' :: rest) = [] :: splitOnSpace rest := by
  rfl

theorem splitOnSpace_ne_nil : ∀ (l : List Char), splitOnSpace l ≠ [] := by
  intro l
  cases l with
  | nil => simp [splitOnSpace]
  | cons c rest =>
    unfold splitOnSpace
    by_cases hc : c = ' '
    · rw [if_pos hc]; simp
    · rw [if_neg hc]
      cases splitOnSpace rest <;> simp

theorem splitOnSpace_cons_ne_of {c : Char} (hc : ¬ c = ' ') {rest : List Char}
    {w : List Char} {ws : List (List Char)} (h : splitOnSpace rest = w :: ws) :
    splitOnSpace (c :: rest) = (c :: w) :: ws := by
  unfold splitOnSpace
  rw [if_neg hc, h]

theorem splitOnSpace_dest (rest : List Char) :
    ∃ w ws, splitOnSpace rest = w :: ws := by
  cases h : splitOnSpace rest with
  | nil => exact absurd h (splitOnSpace_ne_nil rest)
  | cons w ws => exact ⟨w, ws, rfl⟩

theorem joinWithSpace_cons (w : List Char) (ws : List (List Char)) (h : ws ≠ []) :
    joinWithSpace (w :: ws) = w ++ ' ' :: joinWithSpace ws := by
  cases ws with
  | nil => exact absurd rfl h
  | cons w2 ws2 => rfl

theorem joinWithSpace_splitOnSpace (l : List Char) :
    joinWithSpace (splitOnSpace l) = l := by
  induction l with
  | nil => rfl
  | cons c rest ih =>
    by_cases hc : c = ' '
    · subst hc
      rw [splitOnSpace_cons_space, joinWithSpace_cons _ _ (splitOnSpace_ne_nil rest), ih]
      rfl
    · obtain ⟨w, ws, hsp⟩ := splitOnSpace_dest rest
      rw [splitOnSpace_cons_ne_of hc hsp]
      cases ws with
      | nil =>
        have hw : joinWithSpace (splitOnSpace rest) = rest := ih
        rw [hsp] at hw
        show c :: w = c :: rest
        rw [show w = rest from hw]
      | cons w2 ws2 =>
        have hw : joinWithSpace (splitOnSpace rest) = rest := ih
        rw [hsp, joinWithSpace_cons _ _ (by simp)] at hw
        rw [joinWithSpace_cons _ _ (by simp), List.cons_append, hw]

theorem mem_splitOnSpace_word :
    ∀ (l : List Char) (w : List Char), w ∈ splitOnSpace l →
      ∀ c ∈ w, c ∈ l ∧ ¬ c = ' ' := by
  intro l
  induction l with
  | nil =>
    intro w hw c hc
    rw [splitOnSpace_nil_eq, List.mem_singleton] at hw
    subst hw
    exact absurd hc (List.not_mem_nil c)
  | cons x rest ih =>
    intro w hw c hc
    by_cases hx : x = ' '
    · subst hx
      rw [splitOnSpace_cons_space] at hw
      rcases List.mem_cons.mp hw with rfl | hmem
      · exact absurd hc (List.not_mem_nil c)
      · have h := ih w hmem c hc
        exact ⟨List.mem_cons_of_mem _ h.1, h.2⟩
    · obtain ⟨w0, ws0, hsp⟩ := splitOnSpace_dest rest
      rw [splitOnSpace_cons_ne_of hx hsp] at hw
      rcases List.mem_cons.mp hw with rfl | hmem
      · rcases List.mem_cons.mp hc with rfl | hcw0
        · exact ⟨List.mem_cons_self c rest, hx⟩
        · have h := ih w0 (by rw [hsp]; exact List.mem_cons_self w0 ws0) c hcw0
          exact ⟨List.mem_cons_of_mem _ h.1, h.2⟩
      · have h := ih w (by rw [hsp]; exact List.mem_cons_of_mem w0 hmem) c hc
        exact ⟨List.mem_cons_of_mem _ h.1, h.2⟩

theorem splitOnSpace_no_empty :
    ∀ (n : ℕ) (l : List Char), l.length ≤ n → l ≠ [] →
      (∀ c, l.head? = some c → ¬ c = ' ') →
      (∀ c, l.getLast? = some c → ¬ c = ' ') →
      List.Chain' SpRel l →
      ∀ w ∈ splitOnSpace l, w ≠ [] := by
  intro n
  induction n with
  | zero =>
    intro l hl hne
    interval_cases hlen : l.length
    · exact absurd (List.length_eq_zero.mp hlen) hne
  | succ n ih =>
    intro l hlen hne hhead hlast hchain w hw
    cases l with
    | nil => exact absurd rfl hne
    | cons c rest =>
      have hc : ¬ c = ' ' := hhead c rfl
      cases rest with
      | nil =>
        rw [splitOnSpace_cons_ne_of hc splitOnSpace_nil_eq, List.mem_singleton] at hw
        subst hw
        simp
      | cons d rest2 =>
        by_cases hd : d = ' '
        · subst hd
          cases rest2 with
          | nil => exact absurd rfl (hlast ' ' rfl)
          | cons e rest3 =>
            rw [splitOnSpace_cons_ne_of hc
              (splitOnSpace_cons_space (e :: rest3)), List.mem_cons] at hw
            rcases hw with rfl | hw'
            · simp
            · have hchain2 : List.Chain' SpRel (' ' :: e :: rest3) := hchain.tail
              have hrel : SpRel ' ' e := (List.chain'_cons.mp hchain2).1
              have hene : ¬ e = ' ' := by
                intro he
                exact hrel ⟨by decide, by rw [he]; decide⟩
              refine ih (e :: rest3) (by simp at hlen ⊢; omega) (by simp) ?_ ?_ ?_ w hw'
              · intro c' hc'
                have : e = c' := Option.some_injective _ hc'
                exact this ▸ hene
              · intro c' hc'
                apply hlast c'
                rw [List.getLast?_cons_cons, List.getLast?_cons_cons]
                exact hc'
              · exact hchain2.tail
        · obtain ⟨w0, ws0, hsp⟩ := splitOnSpace_dest (d :: rest2)
          rw [splitOnSpace_cons_ne_of hc hsp, List.mem_cons] at hw
          rcases hw with rfl | hw'
          · simp
          · have hres : ∀ u ∈ splitOnSpace (d :: rest2), u ≠ [] := by
              refine ih (d :: rest2) (by simp at hlen ⊢; omega) (by simp) ?_ ?_ hchain.tail
              · intro c' hc'
                have : d = c' := Option.some_injective _ hc'
                exact this ▸ hd
              · intro c' hc'
                apply hlast c'
                rw [List.getLast?_cons_cons]
                exact hc'
            exact hres w (by rw [hsp]; exact List.mem_cons_of_mem w0 hw')

/-! ### Joining space-free words -/

theorem getLast?_mem {l : List Char} {c : Char} (h : l.getLast? = some c) : c ∈ l := by
  rw [← List.head?_reverse] at h
  have := List.mem_of_mem_head? h
  rwa [List.mem_reverse] at this

theorem mem_joinWithSpace :
    ∀ (ws : List (List Char)) (c : Char), c ∈ joinWithSpace ws →
      c = ' ' ∨ ∃ w ∈ ws, c ∈ w := by
  intro ws
  induction ws with
  | nil => intro c hc; exact absurd hc (List.not_mem_nil c)
  | cons w ws' ih =>
    intro c hc
    cases ws' with
    | nil => exact Or.inr ⟨w, List.mem_singleton.mpr rfl, hc⟩
    | cons w2 ws2 =>
      rw [joinWithSpace_cons _ _ (by simp)] at hc
      rcases List.mem_append.mp hc with h | h
      · exact Or.inr ⟨w, List.mem_cons_self _ _, h⟩
      · rcases List.mem_cons.mp h with rfl | h'
        · exact Or.inl rfl
        · rcases ih c h' with h'' | ⟨w', hw', hc'⟩
          · exact Or.inl h''
          · exact Or.inr ⟨w', List.mem_cons_of_mem _ hw', hc'⟩

theorem joinWithSpace_head_not (ws : List (List Char))
    (hw : ∀ w ∈ ws, w ≠ [] ∧ ∀ c ∈ w, isJsSpace c = false) :
    ∀ c, (joinWithSpace ws).head? = some c → isJsSpace c = false := by
  induction ws with
  | nil => intro c hc; exact absurd hc (by simp [joinWithSpace])
  | cons w ws' ih =>
    intro c hc
    obtain ⟨hne, hsp⟩ := hw w (List.mem_cons_self _ _)
    cases ws' with
    | nil => exact hsp c (List.mem_of_mem_head? hc)
    | cons w2 ws2 =>
      rw [joinWithSpace_cons _ _ (by simp)] at hc
      cases w with
      | nil => exact absurd rfl hne
      | cons a w' =>
        have hac : a = c := Option.some_injective _ hc
        subst hac
        exact hsp a (List.mem_cons_self _ _)

theorem joinWithSpace_ne_nil (ws : List (List Char)) (hne : ws ≠ [])
    (hw : ∀ w ∈ ws, w ≠ []) : joinWithSpace ws ≠ [] := by
  cases ws with
  | nil => exact absurd rfl hne
  | cons w ws' =>
    cases ws' with
    | nil => exact hw w (List.mem_cons_self _ _)
    | cons w2 ws2 =>
      rw [joinWithSpace_cons _ _ (by simp)]
      simp

theorem joinWithSpace_last_not (ws : List (List Char))
    (hw : ∀ w ∈ ws, w ≠ [] ∧ ∀ c ∈ w, isJsSpace c = false) :
    ∀ c, (joinWithSpace ws).getLast? = some c → isJsSpace c = false := by
  induction ws with
  | nil => intro c hc; exact absurd hc (by simp [joinWithSpace])
  | cons w ws' ih =>
    intro c hc
    obtain ⟨hne, hsp⟩ := hw w (List.mem_cons_self _ _)
    cases ws' with
    | nil => exact hsp c (getLast?_mem hc)
    | cons w2 ws2 =>
      rw [joinWithSpace_cons _ _ (by simp)] at hc
      have hj : joinWithSpace (w2 :: ws2) ≠ [] :=
        joinWithSpace_ne_nil _ (by simp)
          (fun u hu => (hw u (List.mem_cons_of_mem _ hu)).1)
      cases hjj : joinWithSpace (w2 :: ws2) with
      | nil => exact absurd hjj hj
      | cons d j' =>
        rw [hjj, List.getLast?_append, List.getLast?_cons_cons] at hc
        have hlast : (d :: j').getLast? = some c := by
          cases hg : (d :: j').getLast? with
          | none =>
            exfalso
            rw [List.getLast?_eq_none_iff] at hg
            exact absurd hg (by simp)
          | some e =>
            rw [hg] at hc
            exact hc
        apply ih (fun u hu => hw u (List.mem_cons_of_mem _ hu)) c
        rw [hjj]
        exact hlast

theorem chain'_of_all_not_space {w : List Char}
    (hall : ∀ c ∈ w, isJsSpace c = false) : List.Chain' SpRel w := by
  induction w with
  | nil => simp
  | cons a w' ih =>
    rw [List.chain'_cons']
    refine ⟨?_, ih (fun c hc => hall c (List.mem_cons_of_mem _ hc))⟩
    intro y _
    exact fun hp =>
      (Bool.eq_false_iff.mp (hall a (List.mem_cons_self _ _))) hp.1

theorem joinWithSpace_chain (ws : List (List Char))
    (hw : ∀ w ∈ ws, w ≠ [] ∧ ∀ c ∈ w, isJsSpace c = false) :
    List.Chain' SpRel (joinWithSpace ws) := by
  induction ws with
  | nil => simp [joinWithSpace]
  | cons w ws' ih =>
    obtain ⟨hne, hsp⟩ := hw w (List.mem_cons_self _ _)
    cases ws' with
    | nil => exact chain'_of_all_not_space hsp
    | cons w2 ws2 =>
      rw [joinWithSpace_cons _ _ (by simp)]
      rw [List.chain'_append]
      refine ⟨chain'_of_all_not_space hsp, ?_, ?_⟩
      · rw [List.chain'_cons']
        refine ⟨?_, ih (fun u hu => hw u (List.mem_cons_of_mem _ hu))⟩
        intro y hy
        have hyf : isJsSpace y = false :=
          joinWithSpace_head_not (w2 :: ws2)
            (fun u hu => hw u (List.mem_cons_of_mem _ hu)) y hy
        exact fun hp => (Bool.eq_false_iff.mp hyf) hp.2
      · intro a ha y hy
        have haf : isJsSpace a = false := hsp a (getLast?_mem ha)
        exact fun hp => (Bool.eq_false_iff.mp haf) hp.1

theorem splitOnSpace_no_space_word {w : List Char} (hw : ∀ c ∈ w, ¬ c = ' ') :
    splitOnSpace w = [w] := by
  induction w with
  | nil => rfl
  | cons c w' ih =>
    have hc : ¬ c = ' ' := hw c (List.mem_cons_self _ _)
    rw [splitOnSpace_cons_ne_of hc (ih (fun d hd => hw d (List.mem_cons_of_mem _ hd)))]

theorem splitOnSpace_append_space {w : List Char} (hw : ∀ c ∈ w, ¬ c = ' ')
    (r : List Char) : splitOnSpace (w ++ ' ' :: r) = w :: splitOnSpace r := by
  induction w with
  | nil => exact splitOnSpace_cons_space r
  | cons c w' ih =>
    have hc : ¬ c = ' ' := hw c (List.mem_cons_self _ _)
    rw [List.cons_append,
      splitOnSpace_cons_ne_of hc (ih (fun d hd => hw d (List.mem_cons_of_mem _ hd)))]

theorem splitOnSpace_joinWithSpace (ws : List (List Char)) (hne : ws ≠ [])
    (hw : ∀ w ∈ ws, ∀ c ∈ w, ¬ c = ' ') :
    splitOnSpace (joinWithSpace ws) = ws := by
  induction ws with
  | nil => exact absurd rfl hne
  | cons w ws' ih =>
    cases ws' with
    | nil => exact splitOnSpace_no_space_word (hw w (List.mem_cons_self _ _))
    | cons w2 ws2 =>
      rw [joinWithSpace_cons _ _ (by simp),
        splitOnSpace_append_space (hw w (List.mem_cons_self _ _)),
        ih (by simp) (fun u hu => hw u (List.mem_cons_of_mem _ hu))]

/-! ### The suffix-removal stage -/

theorem removeSuffixesList_fix {l : List Char} (hsn : SpaceNormal l)
    (hsuf : ∀ w ∈ splitOnSpace l,
      listHas BUSINESS_SUFFIXES (w.map jsToLowerChar) = false) :
    removeSuffixesList l = l := by
  unfold removeSuffixesList
  rw [List.filter_eq_self.mpr (fun w hw => decide_eq_true (by rw [hsuf w hw]; simp)),
    joinWithSpace_splitOnSpace, jsTrimList_fix hsn]

theorem removeSuffixesList_props (t : List Char)
    (hchars : CharCanon t) (hsn : SpaceNormal t) :
    CharCanon (removeSuffixesList t) ∧ SpaceNormal (removeSuffixesList t) ∧
    (∀ c ∈ removeSuffixesList t, c ∈ t ∨ c = ' ') ∧
    (∀ w ∈ splitOnSpace (removeSuffixesList t),
      listHas BUSINESS_SUFFIXES (w.map jsToLowerChar) = false) := by
  have hword_chars : ∀ w ∈ splitOnSpace t, ∀ c ∈ w, isJsSpace c = false := by
    intro w hw c hc
    obtain ⟨hct, hcs⟩ := mem_splitOnSpace_word t w hw c hc
    rcases hchars c hct with ⟨hwd, _⟩ | hsp
    · exact word_not_jsSpace hwd
    · exact absurd hsp hcs
  by_cases ht : t = []
  · subst ht
    refine ⟨?_, ?_, ?_, ?_⟩
    · intro c hc
      rw [show removeSuffixesList [] = [] from by decide] at hc
      exact absurd hc (List.not_mem_nil c)
    · rw [show removeSuffixesList [] = [] from by decide]
      exact ⟨fun c hc => absurd hc (by simp), fun c hc => absurd hc (by simp), by simp⟩
    · intro c hc
      rw [show removeSuffixesList [] = [] from by decide] at hc
      exact absurd hc (List.not_mem_nil c)
    · intro w hw
      rw [show removeSuffixesList [] = [] from by decide] at hw
      rw [splitOnSpace_nil_eq, List.mem_singleton] at hw
      subst hw
      decide
  · have hwords_ne : ∀ w ∈ splitOnSpace t, w ≠ [] := by
      apply splitOnSpace_no_empty t.length t le_rfl ht
      · intro c hc hcs
        have h := hsn.1 c hc
        rw [hcs] at h
        exact absurd h (by decide)
      · intro c hc hcs
        have h := hsn.2.1 c hc
        rw [hcs] at h
        exact absurd h (by decide)
      · exact hsn.2.2.imp (fun a d had => fun hp =>
          had (by rw [hp.1, hp.2]; exact ⟨by decide, by decide⟩))
    have hfsub : ∀ w ∈ (splitOnSpace t).filter
        (fun w => ¬ listHas BUSINESS_SUFFIXES (w.map jsToLowerChar)),
        w ∈ splitOnSpace t :=
      fun w hw => (List.mem_filter.mp hw).1
    have hfprops : ∀ w ∈ (splitOnSpace t).filter
        (fun w => ¬ listHas BUSINESS_SUFFIXES (w.map jsToLowerChar)),
        w ≠ [] ∧ ∀ c ∈ w, isJsSpace c = false :=
      fun w hw => ⟨hwords_ne w (hfsub w hw), hword_chars w (hfsub w hw)⟩
    by_cases hws : (splitOnSpace t).filter
        (fun w => ¬ listHas BUSINESS_SUFFIXES (w.map jsToLowerChar)) = []
    · have hrm : removeSuffixesList t = [] := by
        unfold removeSuffixesList
        rw [hws]
        rfl
      refine ⟨?_, ?_, ?_, ?_⟩
      · intro c hc
        rw [hrm] at hc
        exact absurd hc (List.not_mem_nil c)
      · rw [hrm]
        exact ⟨fun c hc => absurd hc (by simp), fun c hc => absurd hc (by simp), by simp⟩
      · intro c hc
        rw [hrm] at hc
        exact absurd hc (List.not_mem_nil c)
      · intro w hw
        rw [hrm, splitOnSpace_nil_eq, List.mem_singleton] at hw
        subst hw
        decide
    · have hjsn : SpaceNormal (joinWithSpace ((splitOnSpace t).filter
          (fun w => ¬ listHas BUSINESS_SUFFIXES (w.map jsToLowerChar)))) :=
        ⟨joinWithSpace_head_not _ hfprops, joinWithSpace_last_not _ hfprops,
          joinWithSpace_chain _ hfprops⟩
      have hrm : removeSuffixesList t =
          joinWithSpace ((splitOnSpace t).filter
            (fun w => ¬ listHas BUSINESS_SUFFIXES (w.map jsToLowerChar))) := by
        unfold removeSuffixesList
        rw [jsTrimList_fix hjsn]
      have hsplit : splitOnSpace (removeSuffixesList t) =
          (splitOnSpace t).filter
            (fun w => ¬ listHas BUSINESS_SUFFIXES (w.map jsToLowerChar)) := by
        rw [hrm]
        apply splitOnSpace_joinWithSpace _ hws
        intro w hw c hc hceq
        have h := (hfprops w hw).2 c hc
        rw [hceq] at h
        exact absurd h (by decide)
      refine ⟨?_, by rw [hrm]; exact hjsn, ?_, ?_⟩
      · intro c hc
        rw [hrm] at hc
        rcases mem_joinWithSpace _ c hc with h | ⟨w, hw, hcw⟩
        · exact Or.inr h
        · exact hchars c (mem_splitOnSpace_word t w (hfsub w hw) c hcw).1
      · intro c hc
        rw [hrm] at hc
        rcases mem_joinWithSpace _ c hc with h | ⟨w, hw, hcw⟩
        · exact Or.inr h
        · exact Or.inl (mem_splitOnSpace_word t w (hfsub w hw) c hcw).1
      · intro w hw
        rw [hsplit] at hw
        have hd := (List.mem_filter.mp hw).2
        have h := of_decide_eq_true hd
        exact Bool.eq_false_iff.mpr h

/-! ### The normalizer pipeline: output shape and fixpoint -/

theorem trimCollapsePunct_props (m : List Char)
    (hu : ∀ c ∈ m, ¬ (65 ≤ c.toNat ∧ c.toNat ≤ 90)) :
    CharCanon (jsTrimList (collapseSpaces
      (m.map (fun c => if ¬ isWordChar c ∧ ¬ isJsSpace c then ' ' else c)))) ∧
    SpaceNormal (jsTrimList (collapseSpaces
      (m.map (fun c => if ¬ isWordChar c ∧ ¬ isJsSpace c then ' ' else c)))) ∧
    (∀ c ∈ jsTrimList (collapseSpaces
      (m.map (fun c => if ¬ isWordChar c ∧ ¬ isJsSpace c then ' ' else c))),
      c ∈ m ∨ c = ' ') := by
  have humem : ∀ c ∈ m.map (fun c => if ¬ isWordChar c ∧ ¬ isJsSpace c then ' ' else c),
      c = ' ' ∨ (c ∈ m ∧ (isWordChar c = true ∨ isJsSpace c = true)) := by
    intro c hc
    obtain ⟨d, hd, hcd⟩ := List.mem_map.mp hc
    by_cases hcond : ¬ isWordChar d ∧ ¬ isJsSpace d
    · rw [if_pos hcond] at hcd
      exact Or.inl hcd.symm
    · rw [if_neg hcond] at hcd
      subst hcd
      rcases Decidable.not_and_iff_or_not.mp hcond with h | h
      · exact Or.inr ⟨hd, Or.inl (Decidable.of_not_not h)⟩
      · exact Or.inr ⟨hd, Or.inr (Decidable.of_not_not h)⟩
  have hvmem : ∀ c ∈ collapseSpaces
      (m.map (fun c => if ¬ isWordChar c ∧ ¬ isJsSpace c then ' ' else c)),
      c = ' ' ∨ (c ∈ m ∧ isWordChar c = true) := by
    intro c hc
    rcases mem_collapseSpacesAux _ _ _ hc with h | ⟨hcu, hns⟩
    · exact Or.inl h
    · rcases humem c hcu with h | ⟨hcm, hws⟩
      · exact Or.inl h
      · rcases hws with hw | hs
        · exact Or.inr ⟨hcm, hw⟩
        · rw [hs] at hns
          exact absurd hns (by simp)
  have hchain := collapseSpacesAux_chain
    (m.map (fun c => if ¬ isWordChar c ∧ ¬ isJsSpace c then ' ' else c)) false
  refine ⟨?_, jsTrimList_spaceNormal _ hchain, ?_⟩
  · intro c hc
    rcases hvmem c (mem_jsTrimList hc) with h | ⟨hcm, hw⟩
    · exact Or.inr h
    · exact Or.inl ⟨hw, hu c hcm⟩
  · intro c hc
    rcases hvmem c (mem_jsTrimList hc) with h | ⟨hcm, _⟩
    · exact Or.inr h
    · exact Or.inl hcm

theorem normalizeList_eq (x : List Char) (cfg : DeduplicationConfig) :
    normalizeList x cfg =
      (if cfg.removeSuffixes then
        removeSuffixesList (jsTrimList (collapseSpaces
          ((if cfg.removeNumbers then
              ((if cfg.handleAccents then
                  removeAccentsList (jsTrimList (x.map jsToLowerChar))
                else jsTrimList (x.map jsToLowerChar)).filter
                  (fun c => ¬ isDigitChar c))
            else (if cfg.handleAccents then
              removeAccentsList (jsTrimList (x.map jsToLowerChar))
            else jsTrimList (x.map jsToLowerChar))).map
            (fun c => if ¬ isWordChar c ∧ ¬ isJsSpace c then ' ' else c))))
      else jsTrimList (collapseSpaces
          ((if cfg.removeNumbers then
              ((if cfg.handleAccents then
                  removeAccentsList (jsTrimList (x.map jsToLowerChar))
                else jsTrimList (x.map jsToLowerChar)).filter
                  (fun c => ¬ isDigitChar c))
            else (if cfg.handleAccents then
              removeAccentsList (jsTrimList (x.map jsToLowerChar))
            else jsTrimList (x.map jsToLowerChar))).map
            (fun c => if ¬ isWordChar c ∧ ¬ isJsSpace c then ' ' else c)))) := rfl

theorem normalizeList_props (x : List Char) (cfg : DeduplicationConfig) :
    CharCanon (normalizeList x cfg) ∧ SpaceNormal (normalizeList x cfg) ∧
    (cfg.removeNumbers = true → ∀ c ∈ normalizeList x cfg, isDigitChar c = false) ∧
    (cfg.removeSuffixes = true → ∀ w ∈ splitOnSpace (normalizeList x cfg),
      listHas BUSINESS_SUFFIXES (w.map jsToLowerChar) = false) := by
  have hn1 : ∀ c ∈ jsTrimList (x.map jsToLowerChar),
      ¬ (65 ≤ c.toNat ∧ c.toNat ≤ 90) := by
    intro c hc
    obtain ⟨d, _, rfl⟩ := List.mem_map.mp (mem_jsTrimList hc)
    exact jsToLowerChar_no_upper d
  have hn2 : ∀ c ∈ (if cfg.handleAccents then
        removeAccentsList (jsTrimList (x.map jsToLowerChar))
      else jsTrimList (x.map jsToLowerChar)),
      ¬ (65 ≤ c.toNat ∧ c.toNat ≤ 90) := by
    intro c hc
    cases hacc : cfg.handleAccents with
    | true =>
      rw [hacc, if_pos rfl] at hc
      unfold removeAccentsList at hc
      obtain ⟨d, hd, hcd⟩ := List.mem_flatMap.mp (List.mem_filter.mp hc).1
      exact nfdChar_no_upper (hn1 d hd) c hcd
    | false =>
      rw [hacc] at hc
      simp only [Bool.false_eq_true, if_false] at hc
      exact hn1 c hc
  have hn3 : ∀ c ∈ (if cfg.removeNumbers then
        ((if cfg.handleAccents then
            removeAccentsList (jsTrimList (x.map jsToLowerChar))
          else jsTrimList (x.map jsToLowerChar)).filter (fun c => ¬ isDigitChar c))
      else (if cfg.handleAccents then
        removeAccentsList (jsTrimList (x.map jsToLowerChar))
      else jsTrimList (x.map jsToLowerChar))),
      ¬ (65 ≤ c.toNat ∧ c.toNat ≤ 90) := by
    intro c hc
    cases hnum : cfg.removeNumbers with
    | true =>
      rw [hnum, if_pos rfl] at hc
      exact hn2 c (List.mem_filter.mp hc).1
    | false =>
      rw [hnum] at hc
      simp only [Bool.false_eq_true, if_false] at hc
      exact hn2 c hc
  have hn3dig : cfg.removeNumbers = true → ∀ c ∈ (if cfg.removeNumbers then
        ((if cfg.handleAccents then
            removeAccentsList (jsTrimList (x.map jsToLowerChar))
          else jsTrimList (x.map jsToLowerChar)).filter (fun c => ¬ isDigitChar c))
      else (if cfg.handleAccents then
        removeAccentsList (jsTrimList (x.map jsToLowerChar))
      else jsTrimList (x.map jsToLowerChar))),
      isDigitChar c = false := by
    intro hnum c hc
    rw [hnum, if_pos rfl] at hc
    have h2 := of_decide_eq_true (List.mem_filter.mp hc).2
    exact Bool.eq_false_iff.mpr h2
  obtain ⟨htc, htsn, htmem⟩ := trimCollapsePunct_props _ hn3
  rw [normalizeList_eq]
  cases hsufb : cfg.removeSuffixes with
  | true =>
    rw [if_pos rfl]
    obtain ⟨hc1, hc2, hc3, hc4⟩ := removeSuffixesList_props _ htc htsn
    refine ⟨hc1, hc2, ?_, fun _ => hc4⟩
    intro hnum c hc
    rcases hc3 c hc with h | h
    · rcases htmem c h with h' | h'
      · exact hn3dig hnum c h'
      · rw [h']; decide
    · rw [h]; decide
  | false =>
    simp only [Bool.false_eq_true, if_false]
    refine ⟨htc, htsn, ?_, ?_⟩
    · intro hnum c hc
      rcases htmem c hc with h | h
      · exact hn3dig hnum c h
      · rw [h]; decide
    · intro h
      exact absurd h (by simp)

theorem normalizeList_fix (l : List Char) (cfg : DeduplicationConfig)
    (hchars : CharCanon l) (hsn : SpaceNormal l)
    (hdig : cfg.removeNumbers = true → ∀ c ∈ l, isDigitChar c = false)
    (hsuf : cfg.removeSuffixes = true → ∀ w ∈ splitOnSpace l,
      listHas BUSINESS_SUFFIXES (w.map jsToLowerChar) = false) :
    normalizeList l cfg = l := by
  have f1 : ∀ c ∈ l, ¬ (65 ≤ c.toNat ∧ c.toNat ≤ 90) := by
    intro c hc
    rcases hchars c hc with ⟨_, h⟩ | h
    · exact h
    · rw [h]; decide
  have f2 : ∀ c ∈ l, c.toNat ≤ 191 := by
    intro c hc
    rcases hchars c hc with ⟨hw, _⟩ | h
    · exact le_trans (word_le_122 hw) (by omega)
    · rw [h]; decide
  have f3 : ∀ c ∈ l, isWordChar c = true ∨ isJsSpace c = true := by
    intro c hc
    rcases hchars c hc with ⟨hw, _⟩ | h
    · exact Or.inl hw
    · rw [h]; exact Or.inr (by decide)
  have f4 : ∀ c ∈ l, isJsSpace c = true → c = ' ' := by
    intro c hc hs
    rcases hchars c hc with ⟨hw, _⟩ | h
    · exact absurd hs (Bool.eq_false_iff.mp (word_not_jsSpace hw))
    · exact h
  have h1 : jsTrimList (l.map jsToLowerChar) = l := by
    rw [map_jsToLowerChar_fix f1, jsTrimList_fix hsn]
  have h4 : jsTrimList (collapseSpaces
      (l.map (fun c => if ¬ isWordChar c ∧ ¬ isJsSpace c then ' ' else c))) = l := by
    rw [punctMap_fix f3]
    unfold collapseSpaces
    rw [collapseSpacesAux_fix l false f4 hsn.2.2 (fun h => absurd h (by simp)),
      jsTrimList_fix hsn]
  rw [normalizeList_eq, h1]
  have h2 : (if cfg.handleAccents then removeAccentsList l else l) = l := by
    cases hacc : cfg.handleAccents with
    | true => rw [if_pos rfl, removeAccentsList_fix f2]
    | false => simp
  rw [h2]
  cases hnum : cfg.removeNumbers with
  | true =>
    rw [if_pos rfl, filter_not_digit_fix (hdig hnum), h4]
    cases hsufb : cfg.removeSuffixes with
    | true => rw [if_pos rfl, removeSuffixesList_fix hsn (hsuf hsufb)]
    | false => simp
  | false =>
    simp only [Bool.false_eq_true, if_false]
    rw [h4]
    cases hsufb : cfg.removeSuffixes with
    | true => rw [if_pos rfl, removeSuffixesList_fix hsn (hsuf hsufb)]
    | false => simp

/-- **C7.** Normalization is idempotent: for every input string and every
configuration, `normalizeCompanyName (normalizeCompanyName x cfg) cfg`
equals `normalizeCompanyName x cfg` — the normalized form is a fixed point
of every pipeline stage. -/
theorem normalize_idempotent (x : String) (cfg : DeduplicationConfig) :
    normalizeCompanyName (normalizeCompanyName x cfg) cfg =
      normalizeCompanyName x cfg := by
  obtain ⟨hc, hsn, hdig, hsuf⟩ := normalizeList_props x.data cfg
  unfold normalizeCompanyName
  exact congrArg String.mk (normalizeList_fix _ cfg hc hsn hdig hsuf)

end CompanyDedup
